import Mathlib

/-!
Verification of the board-column normalization / reconciliation engine and the
membership-invitation flow of the Jira-like backend (`src/routes/projects.js`,
with the document schemas of the Project model).

The JavaScript source is shallowly embedded as pure Lean functions:

* JS strings are Lean `String`s; a JS string field that may be absent or falsy
  is modelled as `""` (absent/`undefined`/`null`/`""` all behave identically
  under the `||` defaulting the source uses on string fields).
* `Date` values are instants, modelled as `Int` timestamps; `new Date()` is an
  explicit `now : Int` parameter threaded through each operation.
* Numbers used as column orders are modelled as `Int` (the routes floor and
  clamp requested orders, and every persisted order is an integer `1..N`).
* Fields that may be a missing property or a non-array are `Option`s.
* An HTTP error response `sendResponse(res, code, msg)` is `Except.error ⟨code, msg⟩`;
  reaching an error in a handler returns before the `findOneAndUpdate` call, so
  an `Except.error` result also means no persistence write happened.
* `Array.prototype.sort` (guaranteed stable with a consistent comparator) is
  modelled by `List.insertionSort`, which is stable, over the "comes before or
  ties" relation of the source's comparator.
-/

namespace JiraBackend

/-! ### Models of the JavaScript string builtins (ASCII semantics)

`String.prototype.toLowerCase` and `String.prototype.trim` are modelled
character-wise so that they reduce definitionally. -/

/-- Model of `String.prototype.toLowerCase` (ASCII case mapping). -/
def jsToLower (s : String) : String := String.mk (s.data.map Char.toLower)

/-- Strip leading and trailing whitespace from a character list. -/
def trimChars (l : List Char) : List Char :=
  ((l.dropWhile Char.isWhitespace).reverse.dropWhile Char.isWhitespace).reverse

/-- Model of `String.prototype.trim`: strip leading and trailing whitespace. -/
def jsTrim (s : String) : String := String.mk (trimChars s.data)

/-! ### Indexed list helpers

These model the JavaScript array operations the routes use:
`map((x, i) => ...)`, `findIndex`, `some((x, i) => ...)`, `splice` insertion
and removal, and insertion-ordered `Set` de-duplication. -/

/-- Model of `array.map((x, i) => f(i, x))`, with `i` starting at the given base. -/
def mapFrom (f : Nat → α → β) : Nat → List α → List β
  | _, [] => []
  | i, x :: xs => f i x :: mapFrom f (i + 1) xs

/-- Model of `Array.prototype.findIndex`; the JS result `-1` is `none`. -/
def findIdxO (p : α → Bool) : List α → Option Nat
  | [] => none
  | x :: xs => if p x then some 0 else (findIdxO p xs).map (· + 1)

/-- Model of `array.some((x, idx) => p(idx, x))`, with `idx` starting at the base. -/
def anyIdxFrom (p : Nat → α → Bool) : Nat → List α → Bool
  | _, [] => false
  | i, x :: xs => p i x || anyIdxFrom p (i + 1) xs

/-- Model of `array.splice(i, 0, a)` (insertion at index `i`, `i ≤ length`). -/
def spliceIn (l : List α) (i : Nat) (a : α) : List α := l.take i ++ a :: l.drop i

/-- Model of `array.splice(i, 1)` (removal of the element at index `i`). -/
def removeAt (l : List α) (i : Nat) : List α := l.take i ++ l.drop (i + 1)

/-- Model of `[...new Set(list)]`: de-duplication keeping first occurrences
(`seen` accumulates the values already emitted). -/
def dedupFirstAux (seen : List String) : List String → List String
  | [] => []
  | x :: xs =>
    if seen.contains x then dedupFirstAux seen xs
    else x :: dedupFirstAux (x :: seen) xs

/-- Model of `[...new Set(list)]`. -/
def dedupFirst (l : List String) : List String := dedupFirstAux [] l

/-! ### Data model

The card/column document shapes of the Project schema.  `Raw` structures are
the loosely-typed client payloads (and raw persisted documents) accepted by the
normalizer; plain structures are its canonical outputs. -/

/-- A raw card descriptor as supplied by a client.  String fields use `""` for
an absent/falsy value; `assignee` is `none` for `null`/absent; `dueDate` is
`none` when absent (a present date value is its instant). -/
structure RawCard where
  title : String := ""
  description : String := ""
  status : String := ""
  assignee : Option String := none
  dueDate : Option Int := none
deriving DecidableEq

/-- A canonical board card. -/
structure Card where
  title : String
  description : String
  status : String
  assignee : Option String
  dueDate : Int
deriving DecidableEq, Inhabited

/-- A raw column descriptor: `name` is `""` when absent/falsy, `order` is
`none` when not a number, `cards` is `none` when not an array. -/
structure RawColumn where
  name : String := ""
  order : Option Int := none
  cards : Option (List RawCard) := none
deriving DecidableEq

/-- A canonical board column. -/
structure Column where
  name : String
  order : Int
  cards : List Card
deriving DecidableEq, Inhabited

/-- An HTTP error response: `sendResponse(res, status, message)` on a non-2xx
path. -/
structure ErrResp where
  status : Nat
  message : String
deriving DecidableEq

/-- The configuration consumed by `createDefaultCards`: a name and the
`defaultCard` marker (absent marker is `false`). -/
structure DefaultCardConfig where
  name : String
  defaultCard : Bool
deriving DecidableEq

/-- `DEFAULT_BOARD_COLUMNS` from `src/routes/projects.js`. -/
def DEFAULT_BOARD_COLUMNS : List DefaultCardConfig :=
  [⟨"To Do", true⟩, ⟨"In Progress", false⟩, ⟨"In Review", false⟩, ⟨"Done", false⟩]

/-- `DEFAULT_BOARD_COLUMNS[index] || {}`: positional fallback lookup; the empty
object has no name (`""`) and no `defaultCard` marker (`false`). -/
def fallbackColumnAt (i : Nat) : DefaultCardConfig :=
  DEFAULT_BOARD_COLUMNS.getD i ⟨"", false⟩

/-- `createDefaultCards(columnConfig)` (projects.js lines 26-41). -/
def createDefaultCards (cfg : DefaultCardConfig) (now : Int) : List Card :=
  if !cfg.defaultCard then []
  else
    let columnName := if cfg.name = "" then "To Do" else cfg.name
    [{ title := "Task 1", description := "Scrum 1 default work item",
       status := columnName, assignee := none, dueDate := now }]

/-- The per-card normalization inside `normalizeColumns` (lines 59-65): title
defaults to "Scrum 1", description to `""`, status to the resolved column name,
assignee to `null`, dueDate to now. -/
def prepareCard (columnName : String) (now : Int) (card : RawCard) : Card :=
  { title := if card.title = "" then "Scrum 1" else card.title
    description := if card.description = "" then "" else card.description
    status := if card.status = "" then columnName else card.status
    assignee := match card.assignee with
      | some a => if a = "" then none else some a
      | none => none
    dueDate := match card.dueDate with
      | some d => d
      | none => now }

/-- The body of `columns.map((col, index) => ...)` in `normalizeColumns`
(lines 54-83): resolve the name (input, positional default-board fallback, or
"Column i+1"), normalize the cards, optionally seed a default card from the
merged `{...fallbackColumn, ...col, name}` config, and keep a numeric order or
fall back to `index + 1`. -/
def normalizeOne (enforceDefaultCard : Bool) (now : Int) (index : Nat) (col : RawColumn) : Column :=
  let fb := fallbackColumnAt index
  let columnName :=
    if col.name ≠ "" then col.name
    else if fb.name ≠ "" then fb.name
    else "Column " ++ toString (index + 1)
  let preparedCards :=
    match col.cards with
    | some cs => cs.map (prepareCard columnName now)
    | none => []
  let cards :=
    if preparedCards ≠ [] then preparedCards
    else if enforceDefaultCard then
      createDefaultCards { name := columnName, defaultCard := fb.defaultCard } now
    else []
  { name := columnName
    order := match col.order with
      | some o => o
      | none => (index : Int) + 1
    cards := cards }

/-- `normalizeColumns(columns, { enforceDefaultCard })` (lines 43-84).  An
empty input produces the fixed default board; note the empty branch calls
`createDefaultCards(column)` directly, without consulting `enforceDefaultCard`. -/
def normalizeColumns (columns : List RawColumn) (enforceDefaultCard : Bool) (now : Int) :
    List Column :=
  if columns.isEmpty then
    mapFrom (fun index column =>
      { name := column.name, order := (index : Int) + 1,
        cards := createDefaultCards column now }) 0 DEFAULT_BOARD_COLUMNS
  else
    mapFrom (normalizeOne enforceDefaultCard now) 0 columns

/-- `normalizeExistingColumns(columns, { fallbackToDefault, ...rest })`
(lines 86-96). -/
def normalizeExistingColumns (columns : List RawColumn) (fallbackToDefault : Bool)
    (enforceDefaultCard : Bool) (now : Int) : List Column :=
  if columns.isEmpty then
    if fallbackToDefault then normalizeColumns [] enforceDefaultCard now else []
  else
    normalizeColumns columns enforceDefaultCard now

/-- `normalizeColumnName` (lines 98-100): `(name || '').trim()`. -/
def normalizeColumnName (name : String) : String := jsTrim name

/-- `findColumnIndex(columns, searchName)` (lines 102-110), with JS `-1`
modelled as `none`. -/
def findColumnIndex (columns : List Column) (searchName : String) : Option Nat :=
  let normalizedSearch := jsToLower (normalizeColumnName searchName)
  if normalizedSearch = "" then none
  else findIdxO (fun column => jsToLower (normalizeColumnName column.name) == normalizedSearch)
    columns

/-! ### The sort comparator

`sortColumnsByOrder` compares numeric orders and breaks ties with
`localeCompare` on the trimmed names.  `localeCompare` under the default (root)
collator compares ASCII strings case-insensitively at the primary level and,
for primary-equal strings, puts lowercase before uppercase at the case level;
that is modelled here via a flattened collation key compared lexicographically
(which is exactly how ICU compares: by collation key).  The `typeof order`
guard of the source is vacuous here because a canonical `Column.order` is
always a number. -/

/-- Lexicographic comparison of integer lists (collation-key comparison). -/
def intListCmp : List Int → List Int → Ordering
  | [], [] => .eq
  | [], _ :: _ => .lt
  | _ :: _, [] => .gt
  | a :: as, b :: bs =>
    if a < b then .lt else if b < a then .gt else intListCmp as bs

/-- Case weight of a character at ICU's case level: lowercase before
uppercase. -/
def caseWeight (c : Char) : Int := if c.isLower then 0 else 1

/-- Collation key of an ASCII string under the default collator: the primary
(case-folded) letters, a terminator below every character, then the case
weights. -/
def collationKey (s : String) : List Int :=
  ((jsToLower s).data.map (fun c => (c.toNat : Int))) ++ (-1) :: (s.data.map caseWeight)

/-- Model of `a.localeCompare(b)` (default locale, ASCII inputs), as an
`Ordering` (JS returns a number; only its sign is consumed). -/
def localeCompareM (a b : String) : Ordering := intListCmp (collationKey a) (collationKey b)

/-- The comparator of `sortColumnsByOrder` (lines 112-122): ascending numeric
order; ties fall through to `localeCompare` of the trimmed names. -/
def columnSortCmp (a b : Column) : Ordering :=
  if a.order = b.order then
    localeCompareM (normalizeColumnName a.name) (normalizeColumnName b.name)
  else if a.order < b.order then .lt
  else .gt

/-- The "sorts no later than" relation induced by the comparator: a stable sort
puts `a` before `b` exactly when the comparator does not say `a > b`. -/
def columnLe (a b : Column) : Prop := columnSortCmp a b ≠ Ordering.gt

instance : DecidableRel columnLe := fun a b => by
  unfold columnLe; infer_instance

/-- `sortColumnsByOrder(columns)` (lines 112-122): a stable sort of a copy of
the list under the comparator, modelled by (stable) insertion sort. -/
def sortColumnsByOrder (columns : List Column) : List Column :=
  List.insertionSort columnLe columns

/-- `reindexColumns(columns)` (lines 124-129): rewrite orders to `idx + 1`. -/
def reindexColumns (columns : List Column) : List Column :=
  mapFrom (fun idx column => { column with order := (idx : Int) + 1 }) 0 columns

/-- `sanitizeColumns(columns, options)` (lines 131-137); every route calls it
with `enforceDefaultCard: false` and without `fallbackToDefault`. -/
def sanitizeColumns (columns : List RawColumn) (enforceDefaultCard : Bool) (now : Int) :
    List Column :=
  let preparedColumns := normalizeExistingColumns columns false enforceDefaultCard now
  if preparedColumns.isEmpty then []
  else reindexColumns (sortColumnsByOrder preparedColumns)

/-- `columnNameExists(columns, name, ignoreIndex)` (lines 139-148), with the JS
`-1` sentinel modelled as `none`. -/
def columnNameExists (columns : List Column) (name : String) (ignoreIndex : Option Nat) : Bool :=
  let normalized := jsToLower (normalizeColumnName name)
  if normalized = "" then false
  else anyIdxFrom (fun idx column =>
    (ignoreIndex != some idx) && (jsToLower (normalizeColumnName column.name) == normalized))
    0 columns

/-! ### Column routes

Each handler is modelled from the point where the project document has been
fetched (project-not-found and authentication are upstream of the logic the
claims are about).  The value in an `Except.ok` is what `findOneAndUpdate`
persists (plus the extra payload the route returns). -/

/-- The columns list persisted by `POST /projects` (line 353):
`normalizeColumns(columns || [], { enforceDefaultCard: true })`. -/
def projectCreateColumns (columns : List RawColumn) (now : Int) : List Column :=
  normalizeColumns columns true now

/-- The columns list persisted by `PUT /projects/:projectId` when a columns
payload is present (line 1469):
`normalizeColumns(columns, { enforceDefaultCard: false })`. -/
def projectUpdateColumns (columns : List RawColumn) (now : Int) : List Column :=
  normalizeColumns columns false now

/-- The columns list returned by `GET /projects/:projectId/columns`
(lines 930-932). -/
def listColumnsView (stored : List RawColumn) (now : Int) : List Column :=
  sortColumnsByOrder (normalizeExistingColumns stored false false now)

/-- `POST /projects/:projectId/columns` (lines 1013-1066).  The success value
is the `{ column, columns }` payload; `columns` is what is persisted.  The
"cards must be an array" 400 is typed away by `cards : Option (List RawCard)`;
`Math.floor` on the requested order is the identity on `Int`. -/
def createColumnOp (stored : List RawColumn) (name : String) (order : Option Int)
    (cards : Option (List RawCard)) (now : Int) : Except ErrResp (Column × List Column) :=
  let normalizedName := normalizeColumnName name
  if normalizedName = "" then .error ⟨400, "Column name is required"⟩
  else
    let columns := sanitizeColumns stored false now
    if columnNameExists columns normalizedName none then .error ⟨409, "Column already exists"⟩
    else
      let preparedColumn :=
        (normalizeColumns [{ name := normalizedName, order := order, cards := cards }]
          false now).headI
      let insertionIndex :=
        match order with
        | some o => if 0 < o then min (o - 1).toNat columns.length else columns.length
        | none => columns.length
      let updatedColumns := reindexColumns (spliceIn columns insertionIndex preparedColumn)
      .ok (updatedColumns.getD insertionIndex default, updatedColumns)

/-- `PUT /projects/:projectId/columns/:columnName` (lines 1169-1251): optional
rename (with emptiness and case-insensitive collision checks and the card
status rewrite), optional full card replacement, optional reorder, then a dense
reindex.  `Number.isFinite` on the requested order is vacuous on `Int`. -/
def updateColumnOp (stored : List RawColumn) (columnName : String) (name : Option String)
    (order : Option Int) (cards : Option (List RawCard)) (now : Int) :
    Except ErrResp (List Column) :=
  if !(name.isSome || order.isSome || cards.isSome) then
    .error ⟨400, "Provide at least one field to update"⟩
  else
    let columns := sanitizeColumns stored false now
    match findColumnIndex columns columnName with
    | none => .error ⟨404, "Column not found"⟩
    | some columnIndex =>
      let column := columns.getD columnIndex default
      let renamed : Except ErrResp Column :=
        match name with
        | some rawName =>
          let newName := normalizeColumnName rawName
          if newName = "" then .error ⟨400, "Column name cannot be empty"⟩
          else if columnNameExists columns newName (some columnIndex) then
            .error ⟨409, "Column with this name already exists"⟩
          else .ok
            { column with
              name := newName
              cards := column.cards.map fun card => { card with status := newName } }
        | none => .ok column
      match renamed with
      | .error e => .error e
      | .ok column1 =>
        let column2 :=
          match cards with
          | some rawCards =>
            { column1 with cards :=
                ((normalizeColumns
                  [{ name := column1.name, order := some column1.order, cards := some rawCards }]
                  false now).headI).cards }
          | none => column1
        let columnsUpd := columns.set columnIndex column2
        let moved :=
          match order with
          | some o =>
            let nextColumns := removeAt columnsUpd columnIndex
            let targetIndex := min (max (o - 1) 0).toNat nextColumns.length
            spliceIn nextColumns targetIndex column2
          | none => columnsUpd
        .ok (reindexColumns moved)

/-- `DELETE /projects/:projectId/columns/:columnName` (lines 1294-1355): remove
the column; if it held cards, require a `targetColumn` (400 when absent/empty
after trimming, 400 "Target column not found" when it matches no remaining
column), migrate the cards with their status rewritten to the destination
column's name, then reindex.  The success value is the
`{ removedColumn, columns }` payload; `columns` is what is persisted.
`targetColumn` is `""` when the request body omitted it. -/
def deleteColumnOp (stored : List RawColumn) (columnName : String) (targetColumn : String)
    (now : Int) : Except ErrResp (String × List Column) :=
  let columns := sanitizeColumns stored false now
  match findColumnIndex columns columnName with
  | none => .error ⟨404, "Column not found"⟩
  | some columnIndex =>
    let removedColumn := columns.getD columnIndex default
    let remaining := removeAt columns columnIndex
    if removedColumn.cards ≠ [] then
      let normalizedTarget := normalizeColumnName targetColumn
      if normalizedTarget = "" then
        .error ⟨400, "Column contains cards. Provide targetColumn or empty it before deletion"⟩
      else
        match findColumnIndex remaining normalizedTarget with
        | none => .error ⟨400, "Target column not found"⟩
        | some targetIndex =>
          let destination := remaining.getD targetIndex default
          let migratedCards :=
            removedColumn.cards.map fun card => { card with status := destination.name }
          let merged :=
            remaining.set targetIndex
              { destination with cards := destination.cards ++ migratedCards }
          .ok (removedColumn.name, reindexColumns merged)
    else
      .ok (removedColumn.name, reindexColumns remaining)

/-! ### Membership and invitations

The Project schema's member and invite subdocuments, and the batch invite
handler `POST /projects/:projectId/invite` (lines 518-639).  User ids are
modelled as `Nat`. -/

/-- `normalizeEmail(email)` (lines 179-184): `email.trim().toLowerCase()`. -/
def normalizeEmail (email : String) : String := jsToLower (jsTrim email)

/-- A member subdocument. -/
structure Member where
  user : Nat
  role : String
  addedBy : Nat
  joinedAt : Int
deriving DecidableEq

/-- An invite subdocument. -/
structure Invite where
  email : String
  invitedBy : Nat
  status : String
  invitedAt : Int
  acceptedAt : Option Int := none
deriving DecidableEq

/-- The membership-relevant part of a project document. -/
structure ProjectDoc where
  owner : Nat
  members : List Member
  invites : List Invite
deriving DecidableEq

/-- A user-directory record (the fields of `User` the invite flow reads). -/
structure UserRec where
  id : Nat
  email : String
deriving DecidableEq

/-- `isProjectMember(project, userId)` (lines 160-170). -/
def isProjectMember (project : ProjectDoc) (userId : Nat) : Bool :=
  (project.owner == userId) || project.members.any (fun member => member.user == userId)

/-- `isProjectOwner(project, userId)` (lines 172-177). -/
def isProjectOwner (project : ProjectDoc) (userId : Nat) : Bool :=
  project.owner == userId

/-- The `requestedEmails` list of the invite handler (lines 523-527): the
`emails` array entries followed by the single `email` field when it is a
non-empty string (`""` models an absent field). -/
def collectRequestedEmails (emailField : String) (emailsField : List String) : List String :=
  emailsField ++ (if emailField ≠ "" then [emailField] else [])

/-- The de-duplicated `normalizedEmails` of the invite handler (lines 529-542). -/
def inviteNormalizedEmails (emailField : String) (emailsField : List String) : List String :=
  dedupFirst (((collectRequestedEmails emailField emailsField).map normalizeEmail).filter
    (fun s => s != ""))

/-- The `invalidEmails` of the invite handler (lines 533-535): raw entries that
normalize to the empty string. -/
def inviteInvalidEmails (emailField : String) (emailsField : List String) : List String :=
  ((collectRequestedEmails emailField emailsField).filter
    (fun raw => normalizeEmail raw == ""))

/-- `User.find({ email: { $in: normalizedEmails } })` followed by
`new Map(existingUsers.map(u => [normalizeEmail(u.email), u]))` (lines 557-560):
lookup of the (last-inserted) user whose normalized stored email is the target.
A `Map` keeps the last entry written for a key, hence the `foldl`. -/
def userByEmail (users : List UserRec) (normalizedEmails : List String) (targetEmail : String) :
    Option UserRec :=
  (users.filter (fun u => normalizedEmails.contains u.email)).foldl
    (fun acc u => if normalizeEmail u.email = targetEmail then some u else acc) none

/-- `markInviteAccepted(targetEmail)` (lines 562-569): flip every pending
invite for the email to accepted. -/
def markInviteAccepted (invites : List Invite) (targetEmail : String) (now : Int) : List Invite :=
  invites.map fun invite =>
    if invite.email = targetEmail ∧ invite.status = "pending" then
      { invite with status := "accepted", acceptedAt := some now }
    else invite

/-- The accumulator of the invite handler's `forEach` loop: the (mutated)
invite list of the project plus the `membersToAdd` / `invitesToAdd` buffers and
the per-email result buckets. -/
structure InviteState where
  invites : List Invite
  membersToAdd : List Member
  invitesToAdd : List Invite
  addedMembers : List String
  invitationsSent : List String
  alreadyMembers : List String
  alreadyInvited : List String
deriving DecidableEq

/-- One iteration of `normalizedEmails.forEach(...)` (lines 581-622). -/
def inviteStep (requester : Nat) (project : ProjectDoc) (users : List UserRec)
    (normalizedEmails : List String) (now : Int) (st : InviteState) (normalizedEmail : String) :
    InviteState :=
  match userByEmail users normalizedEmails normalizedEmail with
  | some existingUser =>
    if st.membersToAdd.any (fun member => member.user == existingUser.id)
        || isProjectMember project existingUser.id then
      { st with alreadyMembers := st.alreadyMembers ++ [normalizedEmail] }
    else
      { st with
        membersToAdd := st.membersToAdd ++ [⟨existingUser.id, "collaborator", requester, now⟩]
        invites := markInviteAccepted st.invites normalizedEmail now
        addedMembers := st.addedMembers ++ [normalizedEmail] }
  | none =>
    if st.invites.any (fun invite => invite.email == normalizedEmail
        && invite.status == "pending") then
      { st with alreadyInvited := st.alreadyInvited ++ [normalizedEmail] }
    else
      { st with
        invitesToAdd := st.invitesToAdd ++ [⟨normalizedEmail, requester, "pending", now, none⟩]
        invitationsSent := st.invitationsSent ++ [normalizedEmail] }

/-- The `results` payload of the invite handler. -/
structure InviteResults where
  addedMembers : List String
  invitationsSent : List String
  alreadyMembers : List String
  alreadyInvited : List String
  invalidEmails : List String
deriving DecidableEq

/-- `POST /projects/:projectId/invite` (lines 518-639), from the point where
the project document was fetched.  The success value is the saved project
document and the `results` payload.  The handler's checks run in source order:
no valid email → 400, then (after the modelled-out project fetch) non-owner →
403. -/
def inviteOp (requester : Nat) (project : ProjectDoc) (emailField : String)
    (emailsField : List String) (users : List UserRec) (now : Int) :
    Except ErrResp (ProjectDoc × InviteResults) :=
  let normalizedEmails := inviteNormalizedEmails emailField emailsField
  if normalizedEmails.isEmpty then .error ⟨400, "At least one valid email is required"⟩
  else if !isProjectOwner project requester then
    .error ⟨403, "Only the project owner can send invitations"⟩
  else
    let st0 : InviteState := ⟨project.invites, [], [], [], [], [], []⟩
    let st := normalizedEmails.foldl (inviteStep requester project users normalizedEmails now) st0
    let updated : ProjectDoc :=
      { project with
        members := project.members ++ st.membersToAdd
        invites := st.invites ++ st.invitesToAdd }
    .ok (updated, ⟨st.addedMembers, st.invitationsSent, st.alreadyMembers, st.alreadyInvited,
      inviteInvalidEmails emailField emailsField⟩)

/-! ### Helper lemmas about the list combinators -/

theorem length_mapFrom (f : Nat → α → β) : ∀ (s : Nat) (l : List α),
    (mapFrom f s l).length = l.length
  | _, [] => rfl
  | s, _ :: xs => by simp [mapFrom, length_mapFrom f (s + 1) xs]

theorem getD_mapFrom (f : Nat → α → β) (d : α) (e : β) :
    ∀ (l : List α) (s i : Nat), i < l.length →
      (mapFrom f s l).getD i e = f (s + i) (l.getD i d) := by
  intro l
  induction l with
  | nil => intro s i h; simp at h
  | cons x xs ih =>
    intro s i h
    cases i with
    | zero => simp [mapFrom]
    | succ j =>
      have hj : j < xs.length := by simpa using h
      simp only [mapFrom, List.getD_cons_succ]
      rw [ih (s + 1) j hj]
      ring_nf

theorem mem_mapFrom (f : Nat → α → β) :
    ∀ (l : List α) (s : Nat) (c : β), c ∈ mapFrom f s l → ∃ i a, a ∈ l ∧ c = f i a := by
  intro l
  induction l with
  | nil => intro s c h; simp [mapFrom] at h
  | cons x xs ih =>
    intro s c h
    simp only [mapFrom, List.mem_cons] at h
    rcases h with h | h
    · exact ⟨s, x, by simp, h⟩
    · rcases ih (s + 1) c h with ⟨i, a, ha, hc⟩
      exact ⟨i, a, by simp [ha], hc⟩

theorem length_spliceIn (l : List α) (i : Nat) (a : α) (h : i ≤ l.length) :
    (spliceIn l i a).length = l.length + 1 := by
  simp only [spliceIn, List.length_append, List.length_cons, List.length_take, List.length_drop]
  omega

theorem self_mem_spliceIn (l : List α) (i : Nat) (a : α) : a ∈ spliceIn l i a := by
  simp [spliceIn]

theorem mem_spliceIn (l : List α) (i : Nat) (a c : α) (h : c ∈ spliceIn l i a) :
    c = a ∨ c ∈ l := by
  simp only [spliceIn, List.mem_append, List.mem_cons] at h
  rcases h with h | h | h
  · exact Or.inr (List.take_subset i l h)
  · exact Or.inl h
  · exact Or.inr (List.drop_subset i l h)

theorem getD_spliceIn_self (a : α) (d : α) :
    ∀ (l : List α) (i : Nat), i ≤ l.length → (spliceIn l i a).getD i d = a := by
  intro l
  induction l with
  | nil =>
    intro i h
    have : i = 0 := by simpa using h
    subst this; rfl
  | cons x xs ih =>
    intro i h
    cases i with
    | zero => rfl
    | succ j =>
      have hj : j ≤ xs.length := by simpa using h
      have : spliceIn (x :: xs) (j + 1) a = x :: spliceIn xs j a := by
        simp [spliceIn]
      rw [this, List.getD_cons_succ, ih j hj]

theorem length_removeAt (l : List α) (i : Nat) (h : i < l.length) :
    (removeAt l i).length = l.length - 1 := by
  simp only [removeAt, List.length_append, List.length_take, List.length_drop]
  omega

theorem mem_removeAt (l : List α) (i : Nat) (c : α) (h : c ∈ removeAt l i) : c ∈ l := by
  simp only [removeAt, List.mem_append] at h
  rcases h with h | h
  · exact List.take_subset i l h
  · exact List.drop_subset (i + 1) l h

theorem mem_set_cases (d : α) :
    ∀ (l : List α) (j : Nat) (v c : α), c ∈ l.set j v →
      (j < l.length ∧ c = v) ∨ ∃ k, k < l.length ∧ k ≠ j ∧ l.getD k d = c := by
  intro l
  induction l with
  | nil => intro j v c h; simp at h
  | cons x xs ih =>
    intro j v c h
    cases j with
    | zero =>
      simp only [List.set] at h
      rcases List.mem_cons.1 h with h | h
      · exact Or.inl ⟨by simp, h⟩
      · rcases List.mem_iff_getElem.1 h with ⟨k, hk, hkc⟩
        refine Or.inr ⟨k + 1, by simpa using hk, by omega, ?_⟩
        simpa [List.getD_cons_succ, List.getD_eq_getElem?_getD, List.getElem?_eq_getElem hk]
          using hkc
    | succ j =>
      simp only [List.set] at h
      rcases List.mem_cons.1 h with h | h
      · exact Or.inr ⟨0, by simp, by omega, by simpa using h.symm⟩
      · rcases ih j v c h with ⟨hj, hc⟩ | ⟨k, hk, hkj, hkc⟩
        · exact Or.inl ⟨by simpa using hj, hc⟩
        · exact Or.inr ⟨k + 1, by simpa using hk, by omega, by simpa using hkc⟩

theorem self_mem_set : ∀ (l : List α) (j : Nat) (v : α), j < l.length → v ∈ l.set j v := by
  intro l
  induction l with
  | nil => intro j v h; simp at h
  | cons x xs ih =>
    intro j v h
    cases j with
    | zero => simp
    | succ j =>
      simp only [List.set]
      exact List.mem_cons_of_mem _ (ih j v (by simpa using h))

theorem getD_set_self (d : α) :
    ∀ (l : List α) (j : Nat) (v : α), j < l.length → (l.set j v).getD j d = v := by
  intro l
  induction l with
  | nil => intro j v h; simp at h
  | cons x xs ih =>
    intro j v h
    cases j with
    | zero => rfl
    | succ j => exact ih j v (by simpa using h)

theorem findIdxO_eq_some (p : α → Bool) (d : α) :
    ∀ (l : List α) (i : Nat), findIdxO p l = some i →
      i < l.length ∧ p (l.getD i d) = true := by
  intro l
  induction l with
  | nil => intro i h; simp [findIdxO] at h
  | cons x xs ih =>
    intro i h
    simp only [findIdxO] at h
    by_cases hp : p x
    · simp [hp] at h
      subst h
      exact ⟨by simp, by simpa using hp⟩
    · simp [hp, Option.map_eq_some'] at h
      rcases h with ⟨j, hj, hij⟩
      rcases ih j hj with ⟨hlt, hpd⟩
      subst hij
      exact ⟨by simpa using hlt, by simpa using hpd⟩

theorem anyIdxFrom_eq_false (p : Nat → α → Bool) (d : α) :
    ∀ (l : List α) (s : Nat), anyIdxFrom p s l = false →
      ∀ k, k < l.length → p (s + k) (l.getD k d) = false := by
  intro l
  induction l with
  | nil => intro s _ k hk; simp at hk
  | cons x xs ih =>
    intro s h k hk
    simp only [anyIdxFrom, Bool.or_eq_false_iff] at h
    cases k with
    | zero => simpa using h.1
    | succ j =>
      have := ih (s + 1) h.2 j (by simpa using hk)
      simpa [Nat.add_assoc, Nat.add_comm 1 j] using this

/-! ### Lemmas about the string models -/

theorem dropWhile_head_false (p : α → Bool) :
    ∀ (l : List α) (x : α) (t : List α), l.dropWhile p = x :: t → p x = false := by
  intro l
  induction l with
  | nil => intro x t h; simp [List.dropWhile] at h
  | cons y ys ih =>
    intro x t h
    by_cases hp : p y
    · rw [List.dropWhile_cons_of_pos hp] at h
      exact ih x t h
    · rw [List.dropWhile_cons_of_neg hp] at h
      injection h with h1 _
      subst h1
      simpa using hp

theorem dropWhile_idem (p : α → Bool) (l : List α) :
    (l.dropWhile p).dropWhile p = l.dropWhile p := by
  cases h : l.dropWhile p with
  | nil => simp
  | cons x t =>
    have hx := dropWhile_head_false p l x t h
    have hneg : ¬ p x = true := by simp [hx]
    rw [List.dropWhile_cons_of_neg hneg]

theorem dropWhile_suffix_ex (p : α → Bool) :
    ∀ l : List α, ∃ t, t ++ l.dropWhile p = l := by
  intro l
  induction l with
  | nil => exact ⟨[], rfl⟩
  | cons x xs ih =>
    by_cases hp : p x
    · rcases ih with ⟨t, ht⟩
      exact ⟨x :: t, by simp [List.dropWhile_cons_of_pos hp, ht]⟩
    · exact ⟨[], by simp [List.dropWhile_cons_of_neg hp]⟩

theorem trimList_step1 (p : α → Bool) (l : List α) :
    (((l.dropWhile p).reverse.dropWhile p).reverse).dropWhile p =
      ((l.dropWhile p).reverse.dropWhile p).reverse := by
  rcases dropWhile_suffix_ex p (l.dropWhile p).reverse with ⟨t, ht⟩
  have hpre : ((l.dropWhile p).reverse.dropWhile p).reverse ++ t.reverse = l.dropWhile p := by
    have h2 := congrArg List.reverse ht
    simpa [List.reverse_append] using h2
  cases hdc : ((l.dropWhile p).reverse.dropWhile p).reverse with
  | nil => simp
  | cons x t2 =>
    have hs1eq : l.dropWhile p = x :: (t2 ++ t.reverse) := by
      rw [← hpre, hdc]; simp
    have hx : p x = false := dropWhile_head_false p l x (t2 ++ t.reverse) hs1eq
    rw [List.dropWhile_cons_of_neg (by simp [hx])]

theorem trimChars_idem (l : List Char) : trimChars (trimChars l) = trimChars l := by
  unfold trimChars
  rw [trimList_step1]
  rw [List.reverse_reverse]
  exact trimList_step1 Char.isWhitespace l

theorem jsTrim_idem (s : String) : jsTrim (jsTrim s) = jsTrim s := by
  show String.mk (trimChars (trimChars s.data)) = String.mk (trimChars s.data)
  exact congrArg String.mk (trimChars_idem s.data)

theorem jsToLower_ne_empty (s : String) (h : s ≠ "") : jsToLower s ≠ "" := by
  intro hc
  apply h
  have hdata : (jsToLower s).data = [] := by rw [hc]
  unfold jsToLower at hdata
  have hnil : s.data = [] := by simpa using hdata
  cases s with
  | mk l =>
    have hl : l = [] := hnil
    rw [hl]

theorem jsTrim_ne_of_normalize_ne (s : String) (h : normalizeColumnName s ≠ "") :
    jsToLower (normalizeColumnName (normalizeColumnName s)) ≠ "" := by
  unfold normalizeColumnName at *
  rw [jsTrim_idem]
  exact jsToLower_ne_empty _ h

/-! ### Order lemmas for the sort comparator -/

theorem intListCmp_eq_iff : ∀ x y : List Int, intListCmp x y = Ordering.eq ↔ x = y := by
  intro x
  induction x with
  | nil => intro y; cases y <;> simp [intListCmp]
  | cons a as ih =>
    intro y
    cases y with
    | nil => simp [intListCmp]
    | cons b bs =>
      simp only [intListCmp]
      rcases lt_trichotomy a b with h1 | h1 | h1
      · rw [if_pos h1]
        constructor
        · intro h; exact absurd h (by simp)
        · intro h; injection h with ha _; omega
      · subst h1
        rw [if_neg (by omega), if_neg (by omega)]
        simp [ih bs]
      · rw [if_neg (by omega), if_pos h1]
        constructor
        · intro h; exact absurd h (by simp)
        · intro h; injection h with ha _; omega

theorem intListCmp_gt_iff_lt : ∀ x y : List Int,
    intListCmp x y = Ordering.gt ↔ intListCmp y x = Ordering.lt := by
  intro x
  induction x with
  | nil => intro y; cases y <;> simp [intListCmp]
  | cons a as ih =>
    intro y
    cases y with
    | nil => simp [intListCmp]
    | cons b bs =>
      simp only [intListCmp]
      rcases lt_trichotomy a b with h1 | h1 | h1
      · rw [if_pos h1, if_neg (by omega), if_pos h1]
        simp
      · subst h1
        rw [if_neg (by omega), if_neg (by omega), if_neg (by omega), if_neg (by omega)]
        exact ih bs
      · rw [if_neg (by omega), if_pos h1, if_pos h1]
        simp

theorem intListCmp_lt_trans : ∀ x y z : List Int,
    intListCmp x y = Ordering.lt → intListCmp y z = Ordering.lt →
      intListCmp x z = Ordering.lt := by
  intro x
  induction x with
  | nil =>
    intro y z hxy hyz
    cases y with
    | nil => exact hyz
    | cons b bs =>
      cases z with
      | nil => simp [intListCmp] at hyz
      | cons c cs => simp [intListCmp]
  | cons a as ih =>
    intro y z hxy hyz
    cases y with
    | nil => simp [intListCmp] at hxy
    | cons b bs =>
      cases z with
      | nil => simp [intListCmp] at hyz
      | cons c cs =>
        simp only [intListCmp] at hxy hyz ⊢
        by_cases h1 : a < b
        · by_cases h2 : b < c
          · rw [if_pos (show a < c by omega)]
          · by_cases h3 : c < b
            · rw [if_neg h2, if_pos h3] at hyz
              exact absurd hyz (by simp)
            · have hbc : b = c := by omega
              subst hbc
              rw [if_pos h1]
        · by_cases h2 : b < a
          · rw [if_neg h1, if_pos h2] at hxy
            exact absurd hxy (by simp)
          · have hab : a = b := by omega
            subst hab
            rw [if_neg h1, if_neg h2] at hxy
            by_cases h3 : a < c
            · rw [if_pos h3]
            · by_cases h4 : c < a
              · rw [if_neg h3, if_pos h4] at hyz
                exact absurd hyz (by simp)
              · rw [if_neg h3, if_neg h4] at hyz
                rw [if_neg h3, if_neg h4]
                exact ih bs cs hxy hyz

/-- The comparator equals collation-key comparison with the numeric order as
the most significant component. -/
theorem columnSortCmp_eq_key (a b : Column) :
    columnSortCmp a b =
      intListCmp (a.order :: collationKey (normalizeColumnName a.name))
        (b.order :: collationKey (normalizeColumnName b.name)) := by
  unfold columnSortCmp localeCompareM
  rcases lt_trichotomy a.order b.order with h | h | h
  · simp only [intListCmp]
    simp [h, show a.order ≠ b.order by omega]
  · simp only [intListCmp]
    simp [h, show ¬b.order < b.order by omega]
  · simp only [intListCmp]
    simp [h, show a.order ≠ b.order by omega, show ¬a.order < b.order by omega]

instance : IsTotal Column columnLe := by
  constructor
  intro a b
  unfold columnLe
  rw [columnSortCmp_eq_key, columnSortCmp_eq_key]
  by_cases h : intListCmp (a.order :: collationKey (normalizeColumnName a.name))
      (b.order :: collationKey (normalizeColumnName b.name)) = Ordering.gt
  · right
    rw [(intListCmp_gt_iff_lt _ _).1 h]
    simp
  · exact Or.inl h

instance : IsTrans Column columnLe := by
  constructor
  intro a b c hab hbc
  unfold columnLe at *
  rw [columnSortCmp_eq_key] at hab hbc ⊢
  set ka := a.order :: collationKey (normalizeColumnName a.name)
  set kb := b.order :: collationKey (normalizeColumnName b.name)
  set kc := c.order :: collationKey (normalizeColumnName c.name)
  cases h1 : intListCmp ka kb with
  | gt => exact absurd h1 hab
  | eq =>
    have : ka = kb := (intListCmp_eq_iff ka kb).1 h1
    rw [this]
    exact hbc
  | lt =>
    cases h2 : intListCmp kb kc with
    | gt => exact absurd h2 hbc
    | eq =>
      have : kb = kc := (intListCmp_eq_iff kb kc).1 h2
      rw [← this]
      simp [h1]
    | lt =>
      have := intListCmp_lt_trans ka kb kc h1 h2
      simp [this]

/-! ### Density of the order fields -/

/-- The persisted order fields are exactly the dense sequence `1..N` matching
array position. -/
def denseOrders (l : List Column) : Prop :=
  ∀ i : Nat, i < l.length → (l.getD i default).order = (i : Int) + 1

theorem length_reindexColumns (l : List Column) : (reindexColumns l).length = l.length :=
  length_mapFrom _ 0 l

theorem denseOrders_reindexColumns (l : List Column) : denseOrders (reindexColumns l) := by
  intro i hi
  rw [length_reindexColumns] at hi
  unfold reindexColumns
  rw [getD_mapFrom _ default default l 0 i hi]
  simp

theorem denseOrders_nil : denseOrders [] := by
  intro i hi
  simp at hi

theorem denseOrders_sanitizeColumns (cols : List RawColumn) (e : Bool) (now : Int) :
    denseOrders (sanitizeColumns cols e now) := by
  unfold sanitizeColumns
  by_cases h : (normalizeExistingColumns cols false e now).isEmpty
  · simp only [h, if_true]
    exact denseOrders_nil
  · simp only [h, if_false]
    exact denseOrders_reindexColumns _

/-! ### Lemmas about column lookup and the duplicate-name check -/

theorem findColumnIndex_eq_some (l : List Column) (s : String) (i : Nat)
    (h : findColumnIndex l s = some i) :
    i < l.length ∧ jsToLower (normalizeColumnName (l.getD i default).name) =
      jsToLower (normalizeColumnName s) := by
  simp only [findColumnIndex] at h
  by_cases hs : jsToLower (normalizeColumnName s) = ""
  · rw [if_pos hs] at h
    simp at h
  · rw [if_neg hs] at h
    have := findIdxO_eq_some _ default l i h
    refine ⟨this.1, ?_⟩
    have hp := this.2
    simpa using hp

theorem columnNameExists_false_forall (columns : List Column) (nm : String) (ign : Option Nat)
    (hne : jsToLower (normalizeColumnName nm) ≠ "")
    (h : columnNameExists columns nm ign = false) :
    ∀ k, k < columns.length → ign ≠ some k →
      jsToLower (normalizeColumnName (columns.getD k default).name) ≠
        jsToLower (normalizeColumnName nm) := by
  intro k hk hik
  simp only [columnNameExists] at h
  rw [if_neg hne] at h
  have hfalse := anyIdxFrom_eq_false _ default columns 0 h k hk
  simp only [Nat.zero_add] at hfalse
  rcases Bool.and_eq_false_iff.mp hfalse with h1 | h2
  · exfalso
    apply hik
    simpa using h1
  · simpa using h2

theorem columnNameExists_nil (nm : String) (ign : Option Nat) :
    columnNameExists [] nm ign = false := by
  simp [columnNameExists, anyIdxFrom]

/-! ### Claim C1 -/

/-- C1, counterexample: calling `normalizeColumns` on an empty list with
`enforceDefaultCard = false` still seeds the default card in "To Do" — the
empty-input branch ignores the flag, so it is not the case that every column
has zero cards when the flag is false. -/
theorem C1_counterexample :
    ((normalizeColumns [] false 0).getD 0 default).name = "To Do" ∧
      ((normalizeColumns [] false 0).getD 0 default).cards.length = 1 :=
  ⟨rfl, rfl⟩

/-- C1, amended: for an empty input and either value of `enforceDefaultCard`,
`normalizeColumns` returns exactly the four default columns "To Do",
"In Progress", "In Review", "Done" with orders 1,2,3,4, and "To Do" always
holds exactly the one seeded card "Task 1" (regardless of the flag), the other
columns zero cards. -/
theorem C1_normalize_empty (enforceDefaultCard : Bool) (now : Int) :
    normalizeColumns [] enforceDefaultCard now =
      [{ name := "To Do", order := 1,
         cards := [{ title := "Task 1", description := "Scrum 1 default work item",
                     status := "To Do", assignee := none, dueDate := now }] },
       { name := "In Progress", order := 2, cards := [] },
       { name := "In Review", order := 3, cards := [] },
       { name := "Done", order := 4, cards := [] }] := rfl

/-! ### Claim C2 -/

theorem createColumnOp_ok_dense (stored : List RawColumn) (nm : String) (ord : Option Int)
    (cards : Option (List RawCard)) (now : Int) (r : Column × List Column)
    (h : createColumnOp stored nm ord cards now = .ok r) : denseOrders r.2 := by
  simp only [createColumnOp] at h
  split at h
  · exact absurd h (by simp)
  · split at h
    · exact absurd h (by simp)
    · injection h with h2
      rw [← h2]
      exact denseOrders_reindexColumns _

theorem updateColumnOp_ok_dense (stored : List RawColumn) (cname : String) (nm : Option String)
    (ord : Option Int) (cards : Option (List RawCard)) (now : Int) (cols2 : List Column)
    (h : updateColumnOp stored cname nm ord cards now = .ok cols2) : denseOrders cols2 := by
  simp only [updateColumnOp] at h
  split at h
  · exact absurd h (by simp)
  · split at h
    · exact absurd h (by simp)
    · split at h
      · exact absurd h (by simp)
      · injection h with h2
        rw [← h2]
        exact denseOrders_reindexColumns _

theorem deleteColumnOp_ok_dense (stored : List RawColumn) (cname target : String) (now : Int)
    (r : String × List Column)
    (h : deleteColumnOp stored cname target now = .ok r) : denseOrders r.2 := by
  simp only [deleteColumnOp] at h
  split at h
  · exact absurd h (by simp)
  · split at h
    · split at h
      · exact absurd h (by simp)
      · split at h
        · exact absurd h (by simp)
        · injection h with h2
          rw [← h2]
          exact denseOrders_reindexColumns _
    · injection h with h2
      rw [← h2]
      exact denseOrders_reindexColumns _

/-- C2: the output of `sanitizeColumns` and the column list persisted by each
column-mutating operation (create, update/rename/reorder, delete) carry order
fields that form exactly the dense sequence `1..N` matching array position. -/
theorem C2_dense_orders :
    (∀ (cols : List RawColumn) (e : Bool) (now : Int),
      denseOrders (sanitizeColumns cols e now)) ∧
    (∀ (stored : List RawColumn) (nm : String) (ord : Option Int)
        (cards : Option (List RawCard)) (now : Int) (r : Column × List Column),
      createColumnOp stored nm ord cards now = .ok r → denseOrders r.2) ∧
    (∀ (stored : List RawColumn) (cname : String) (nm : Option String) (ord : Option Int)
        (cards : Option (List RawCard)) (now : Int) (cols2 : List Column),
      updateColumnOp stored cname nm ord cards now = .ok cols2 → denseOrders cols2) ∧
    (∀ (stored : List RawColumn) (cname target : String) (now : Int)
        (r : String × List Column),
      deleteColumnOp stored cname target now = .ok r → denseOrders r.2) :=
  ⟨denseOrders_sanitizeColumns,
   createColumnOp_ok_dense,
   updateColumnOp_ok_dense,
   deleteColumnOp_ok_dense⟩

/-- C2, witness: the density invariant evaluated after each concrete
operation. -/
theorem C2_dense_orders_witness :
    denseOrders (sanitizeColumns [⟨"B", some 2, none⟩, ⟨"A", some 9, none⟩] false 0) ∧
    denseOrders [{ name := "N", order := 1, cards := [] }] ∧
    denseOrders [{ name := "C", order := 1,
                   cards := [{ title := "c1", description := "", status := "C",
                               assignee := none, dueDate := 0 }] },
                 { name := "B", order := 2, cards := [] }] ∧
    denseOrders [{ name := "B", order := 1,
                   cards := [{ title := "c1", description := "", status := "B",
                               assignee := none, dueDate := 0 }] }] :=
  ⟨C2_dense_orders.1 [⟨"B", some 2, none⟩, ⟨"A", some 9, none⟩] false 0,
   by
    have h := C2_dense_orders.2.1 [] "N" none none 0
      ({ name := "N", order := 1, cards := [] }, [{ name := "N", order := 1, cards := [] }]) rfl
    exact h,
   by
    have h := C2_dense_orders.2.2.1 [⟨"A", some 1, some [⟨"c1", "", "A", none, some 0⟩]⟩,
      ⟨"B", some 2, none⟩] "a" (some "C") none none 3
      [{ name := "C", order := 1,
         cards := [{ title := "c1", description := "", status := "C",
                     assignee := none, dueDate := 0 }] },
       { name := "B", order := 2, cards := [] }] rfl
    exact h,
   by
    have h := C2_dense_orders.2.2.2 [⟨"A", some 1, some [⟨"c1", "", "A", none, some 0⟩]⟩,
      ⟨"B", some 2, some []⟩] "A" "b" 3
      ("A", [{ name := "B", order := 1,
               cards := [{ title := "c1", description := "", status := "B",
                           assignee := none, dueDate := 0 }] }]) rfl
    exact h⟩

/-! ### Claim C7 -/

/-- The specification's tie-breaking rule for C7, stated as a definition from
the spec's words: names are compared case-insensitively, so two names
differing only in letter case compare equal. -/
def specCiCmp (a b : String) : Ordering :=
  intListCmp ((jsToLower a).data.map (fun c => (c.toNat : Int)))
    ((jsToLower b).data.map (fun c => (c.toNat : Int)))

/-- The specification's comparator for C7: ascending order, ties broken by the
case-insensitive comparison of the trimmed names. -/
def specColumnCmp (a b : Column) : Ordering :=
  if a.order = b.order then
    specCiCmp (normalizeColumnName a.name) (normalizeColumnName b.name)
  else if a.order < b.order then .lt
  else .gt

/-- The sort relation induced by the specification's comparator. -/
def specColumnLe (a b : Column) : Prop := specColumnCmp a b ≠ Ordering.gt

instance : DecidableRel specColumnLe := fun a b => by
  unfold specColumnLe; infer_instance

/-- The stable sort the specification describes for C7. -/
def specSortColumnsByOrder (columns : List Column) : List Column :=
  List.insertionSort specColumnLe columns

/-- C7, counterexample: two columns with equal orders whose names differ only
in letter case.  Under the claim's rule they compare equal, so a stable sort
keeps the input order "A", "a"; the code's `localeCompare` tie-break is
case-sensitive (lowercase first) and produces "a", "A" instead. -/
theorem C7_counterexample :
    (sortColumnsByOrder [⟨"A", 1, []⟩, ⟨"a", 1, []⟩]).map Column.name = ["a", "A"] ∧
    (specSortColumnsByOrder [⟨"A", 1, []⟩, ⟨"a", 1, []⟩]).map Column.name = ["A", "a"] :=
  ⟨rfl, rfl⟩

/-- C7, amended: `sortColumnsByOrder` permutes its input and sorts it by
ascending numeric order with ties broken by the default-locale comparison of
the trimmed names — a comparison that distinguishes letter case (lowercase
sorts before uppercase for names differing only in case), not a
case-insensitive one. -/
theorem C7_sorted_by_order_then_locale (cols : List Column) :
    (sortColumnsByOrder cols).Perm cols ∧
      List.Pairwise columnLe (sortColumnsByOrder cols) :=
  ⟨List.perm_insertionSort columnLe cols, List.sorted_insertionSort columnLe cols⟩

/-! ### Claim C10 -/

/-- C10: an empty persisted column list is never replaced by the default
board on the column endpoints — `normalizeExistingColumns` (with its default
`fallbackToDefault = false`) and `sanitizeColumns` return `[]`, the column
listing view is empty, and creating a single column on such a project succeeds
and yields a board with exactly one column. -/
theorem C10_empty_stays_empty :
    (∀ (e : Bool) (now : Int), normalizeExistingColumns [] false e now = []) ∧
    (∀ (e : Bool) (now : Int), sanitizeColumns [] e now = []) ∧
    (∀ now : Int, listColumnsView [] now = []) ∧
    (∀ (nm : String) (ord : Option Int) (cards : Option (List RawCard)) (now : Int),
      normalizeColumnName nm ≠ "" →
      ∃ col cols2, createColumnOp [] nm ord cards now = .ok (col, cols2) ∧ cols2.length = 1) := by
  refine ⟨fun e now => rfl, fun e now => rfl, fun now => rfl, ?_⟩
  intro nm ord cards now hnm
  simp only [createColumnOp]
  rw [if_neg hnm]
  have hsan : sanitizeColumns [] false now = [] := rfl
  rw [hsan, columnNameExists_nil]
  simp only [Bool.false_eq_true, if_false]
  have hsplice : ∀ (i : Nat) (a : Column), spliceIn [] i a = [a] := by
    intro i a
    simp [spliceIn]
  rcases ord with _ | o
  · exact ⟨_, _, rfl, by simp [hsplice, reindexColumns, mapFrom]⟩
  · by_cases h0 : 0 < o
    · refine ⟨_, _, rfl, ?_⟩
      simp [h0, hsplice, reindexColumns, mapFrom]
    · refine ⟨_, _, rfl, ?_⟩
      simp [h0, hsplice, reindexColumns, mapFrom]

/-- C10, witness: creating the single column "Todo" on an empty board. -/
theorem C10_empty_stays_empty_witness :
    normalizeColumnName "Todo" ≠ "" ∧
    ∃ col cols2, createColumnOp [] "Todo" none none 0 = .ok (col, cols2) ∧ cols2.length = 1 :=
  ⟨by decide, C10_empty_stays_empty.2.2.2 "Todo" none none 0 (by decide)⟩

/-! ### Claim C4 -/

theorem findColumnIndex_empty_search (l : List Column) : findColumnIndex l "" = none := rfl

/-- C4, counterexample: deleting a card-holding column while naming a
`targetColumn` that matches no remaining column is rejected with status 400
("Target column not found"), not with the 404 the claim asserts. -/
theorem C4_counterexample :
    deleteColumnOp [⟨"Hold", some 1, some [⟨"t", "", "", none, some 0⟩]⟩,
        ⟨"Other", some 2, some []⟩] "Hold" "Nope" 0 =
      .error ⟨400, "Target column not found"⟩ := rfl

/-- C4, amended: deleting a column that holds at least one card is rejected
with a 400 validation error when `targetColumn` is absent or empty after
trimming, and with a 400 "Target column not found" error (not a 404) when the
trimmed `targetColumn` matches no remaining column; both rejections return
before the persistence write, leaving the stored column list unchanged. -/
theorem C4_delete_rejections (stored : List RawColumn) (cname target : String) (now : Int)
    (i : Nat)
    (hFind : findColumnIndex (sanitizeColumns stored false now) cname = some i)
    (hCards : ((sanitizeColumns stored false now).getD i default).cards ≠ []) :
    (normalizeColumnName target = "" →
      deleteColumnOp stored cname target now =
        .error ⟨400, "Column contains cards. Provide targetColumn or empty it before deletion"⟩) ∧
    (normalizeColumnName target ≠ "" →
      findColumnIndex (removeAt (sanitizeColumns stored false now) i)
        (normalizeColumnName target) = none →
      deleteColumnOp stored cname target now = .error ⟨400, "Target column not found"⟩) := by
  constructor
  · intro hempty
    simp only [deleteColumnOp, hFind]
    rw [if_pos hCards, if_pos hempty]
  · intro hne hnone
    simp only [deleteColumnOp, hFind]
    rw [if_pos hCards, if_neg hne, hnone]

/-- C4, witness: both rejection paths on a concrete two-column board whose
"A" column holds a card. -/
theorem C4_delete_rejections_witness :
    deleteColumnOp [⟨"A", some 1, some [⟨"c1", "", "A", none, some 0⟩]⟩,
        ⟨"B", some 2, some []⟩] "A" "  " 3 =
      .error ⟨400, "Column contains cards. Provide targetColumn or empty it before deletion"⟩ ∧
    deleteColumnOp [⟨"A", some 1, some [⟨"c1", "", "A", none, some 0⟩]⟩,
        ⟨"B", some 2, some []⟩] "A" "Nope" 3 =
      .error ⟨400, "Target column not found"⟩ :=
  ⟨(C4_delete_rejections [⟨"A", some 1, some [⟨"c1", "", "A", none, some 0⟩]⟩,
      ⟨"B", some 2, some []⟩] "A" "  " 3 0 rfl (by decide)).1 rfl,
   (C4_delete_rejections [⟨"A", some 1, some [⟨"c1", "", "A", none, some 0⟩]⟩,
      ⟨"B", some 2, some []⟩] "A" "Nope" 3 0 rfl (by decide)).2 (by decide) rfl⟩

/-! ### Claim C3 -/

/-- The total number of cards across a column list. -/
def totalCards (l : List Column) : Nat := (l.map (fun c => c.cards.length)).sum

theorem totalCards_cons (x : Column) (xs : List Column) :
    totalCards (x :: xs) = x.cards.length + totalCards xs := by
  simp [totalCards]

theorem totalCards_reindexColumns (l : List Column) :
    totalCards (reindexColumns l) = totalCards l := by
  suffices h : ∀ s, totalCards
      (mapFrom (fun idx column => { column with order := (idx : Int) + 1 }) s l) =
      totalCards l from h 0
  induction l with
  | nil => intro s; rfl
  | cons x xs ih =>
    intro s
    simp only [mapFrom, totalCards_cons]
    rw [ih (s + 1)]

theorem totalCards_set : ∀ (l : List Column) (j : Nat) (v : Column), j < l.length →
    totalCards (l.set j v) + (l.getD j default).cards.length =
      totalCards l + v.cards.length := by
  intro l
  induction l with
  | nil => intro j v h; simp at h
  | cons x xs ih =>
    intro j v h
    cases j with
    | zero =>
      simp only [List.set, totalCards_cons, List.getD_cons_zero]
      omega
    | succ j =>
      simp only [List.set, totalCards_cons, List.getD_cons_succ]
      have := ih j v (by simpa using h)
      omega

theorem removeAt_cons_succ (x : α) (xs : List α) (i : Nat) :
    removeAt (x :: xs) (i + 1) = x :: removeAt xs i := by
  simp [removeAt]

theorem totalCards_removeAt : ∀ (l : List Column) (i : Nat), i < l.length →
    totalCards l = (l.getD i default).cards.length + totalCards (removeAt l i) := by
  intro l
  induction l with
  | nil => intro i h; simp at h
  | cons x xs ih =>
    intro i h
    cases i with
    | zero =>
      have : removeAt (x :: xs) 0 = xs := rfl
      rw [this, totalCards_cons, List.getD_cons_zero]
    | succ i =>
      rw [removeAt_cons_succ, totalCards_cons, totalCards_cons, List.getD_cons_succ]
      have := ih i (by simpa using h)
      omega

theorem getD_reindexColumns (l : List Column) (i : Nat) (h : i < l.length) :
    (reindexColumns l).getD i default =
      { l.getD i default with order := (i : Int) + 1 } := by
  unfold reindexColumns
  rw [getD_mapFrom _ default default l 0 i h]
  simp

/-- C3: deleting a card-holding column with a `targetColumn` that resolves to
a remaining column migrates every card into the destination: the destination's
card list afterwards is its prior cards followed by the removed column's cards
with status rewritten to the destination's name, its card count grows by
exactly the removed column's card count, every migrated card's status equals
the destination column's name, and the total card count over the board is
unchanged (no card is lost). -/
theorem C3_delete_migrates (stored : List RawColumn) (cname target : String) (now : Int)
    (columns remaining : List Column) (i j : Nat) (removed destination : Column)
    (hCols : columns = sanitizeColumns stored false now)
    (hFind : findColumnIndex columns cname = some i)
    (hRemoved : removed = columns.getD i default)
    (hCards : removed.cards ≠ [])
    (hRem : remaining = removeAt columns i)
    (hTarget : findColumnIndex remaining (normalizeColumnName target) = some j)
    (hDest : destination = remaining.getD j default) :
    ∃ final : List Column,
      deleteColumnOp stored cname target now = .ok (removed.name, final) ∧
      (final.getD j default).name = destination.name ∧
      (final.getD j default).cards =
        destination.cards ++
          removed.cards.map (fun card => { card with status := destination.name }) ∧
      (final.getD j default).cards.length =
        destination.cards.length + removed.cards.length ∧
      (∀ card ∈ (final.getD j default).cards.drop destination.cards.length,
        card.status = destination.name) ∧
      totalCards final = totalCards columns := by
  subst hCols
  subst hRemoved
  subst hRem
  subst hDest
  have hne : normalizeColumnName target ≠ "" := by
    intro hcontra
    rw [hcontra, findColumnIndex_empty_search] at hTarget
    exact absurd hTarget (by simp)
  have hi := findColumnIndex_eq_some _ _ _ hFind
  have hj := findColumnIndex_eq_some _ _ _ hTarget
  have hop : deleteColumnOp stored cname target now =
      .ok (((sanitizeColumns stored false now).getD i default).name,
        reindexColumns ((removeAt (sanitizeColumns stored false now) i).set j
          { (removeAt (sanitizeColumns stored false now) i).getD j default with
            cards := ((removeAt (sanitizeColumns stored false now) i).getD j default).cards ++
              ((sanitizeColumns stored false now).getD i default).cards.map
                (fun card => { card with
                  status := ((removeAt (sanitizeColumns stored false now) i).getD j
                    default).name }) })) := by
    simp only [deleteColumnOp, hFind]
    rw [if_pos hCards, if_neg hne, hTarget]
  refine ⟨_, hop, ?_, ?_, ?_, ?_, ?_⟩
  · rw [getD_reindexColumns _ j (by rw [List.length_set]; exact hj.1)]
    rw [getD_set_self default _ j _ hj.1]
  · rw [getD_reindexColumns _ j (by rw [List.length_set]; exact hj.1)]
    rw [getD_set_self default _ j _ hj.1]
  · rw [getD_reindexColumns _ j (by rw [List.length_set]; exact hj.1)]
    rw [getD_set_self default _ j _ hj.1]
    simp
  · intro card hcard
    rw [getD_reindexColumns _ j (by rw [List.length_set]; exact hj.1)] at hcard
    rw [getD_set_self default _ j _ hj.1] at hcard
    simp only [List.drop_left] at hcard
    rcases List.mem_map.1 hcard with ⟨c0, _, hc0⟩
    rw [← hc0]
  · rw [totalCards_reindexColumns]
    have h1 := totalCards_set _ j
      { (removeAt (sanitizeColumns stored false now) i).getD j default with
        cards := ((removeAt (sanitizeColumns stored false now) i).getD j default).cards ++
          ((sanitizeColumns stored false now).getD i default).cards.map
            (fun card => { card with
              status := ((removeAt (sanitizeColumns stored false now) i).getD j default).name }) }
      hj.1
    have h2 := totalCards_removeAt _ i hi.1
    simp only [List.length_append, List.length_map] at h1
    dsimp only at h1 ⊢
    omega

/-- C3, witness: deleting column "A" (one card) into "B" on a concrete
two-column board. -/
theorem C3_delete_migrates_witness :
    ∃ final : List Column,
      deleteColumnOp [⟨"A", some 1, some [⟨"c1", "", "A", none, some 0⟩]⟩,
          ⟨"B", some 2, some []⟩] "A" "b" 3 =
        .ok (({ name := "A", order := 1,
                cards := [{ title := "c1", description := "", status := "A",
                            assignee := none, dueDate := 0 }] } : Column).name, final) ∧
      (final.getD 0 default).name = ({ name := "B", order := 2, cards := [] } : Column).name ∧
      (final.getD 0 default).cards =
        ({ name := "B", order := 2, cards := [] } : Column).cards ++
          ({ name := "A", order := 1,
             cards := [{ title := "c1", description := "", status := "A",
                         assignee := none, dueDate := 0 }] } : Column).cards.map
            (fun card => { card with status := ({ name := "B", order := 2,
                                                  cards := [] } : Column).name }) ∧
      (final.getD 0 default).cards.length =
        ({ name := "B", order := 2, cards := [] } : Column).cards.length +
          ({ name := "A", order := 1,
             cards := [{ title := "c1", description := "", status := "A",
                         assignee := none, dueDate := 0 }] } : Column).cards.length ∧
      (∀ card ∈ (final.getD 0 default).cards.drop
          ({ name := "B", order := 2, cards := [] } : Column).cards.length,
        card.status = ({ name := "B", order := 2, cards := [] } : Column).name) ∧
      totalCards final =
        totalCards [{ name := "A", order := 1,
                      cards := [{ title := "c1", description := "", status := "A",
                                  assignee := none, dueDate := 0 }] },
                    { name := "B", order := 2, cards := [] }] :=
  C3_delete_migrates
    [⟨"A", some 1, some [⟨"c1", "", "A", none, some 0⟩]⟩, ⟨"B", some 2, some []⟩]
    "A" "b" 3
    [{ name := "A", order := 1,
       cards := [{ title := "c1", description := "", status := "A",
                   assignee := none, dueDate := 0 }] },
     { name := "B", order := 2, cards := [] }]
    [{ name := "B", order := 2, cards := [] }]
    0 0
    { name := "A", order := 1,
      cards := [{ title := "c1", description := "", status := "A",
                  assignee := none, dueDate := 0 }] }
    { name := "B", order := 2, cards := [] }
    rfl rfl rfl (by decide) rfl rfl rfl

/-! ### Claim C5 -/

theorem mem_mapFrom_of_mem (f : Nat → α → β) :
    ∀ (l : List α) (s : Nat) (a : α), a ∈ l → ∃ i, f i a ∈ mapFrom f s l := by
  intro l
  induction l with
  | nil => intro s a h; simp at h
  | cons x xs ih =>
    intro s a h
    rcases List.mem_cons.1 h with h | h
    · subst h
      exact ⟨s, by simp [mapFrom]⟩
    · rcases ih (s + 1) a h with ⟨i, hi⟩
      exact ⟨i, by simp [mapFrom, hi]⟩

theorem mem_reindexColumns (l : List Column) (c : Column) (h : c ∈ reindexColumns l) :
    ∃ i : Nat, ∃ a, a ∈ l ∧ c = { a with order := (i : Int) + 1 } := by
  rcases mem_mapFrom _ l 0 c h with ⟨i, a, ha, hc⟩
  exact ⟨i, a, ha, hc⟩

theorem mem_reindexColumns_of_mem (l : List Column) (a : Column) (h : a ∈ l) :
    ∃ i : Nat, ({ a with order := (i : Int) + 1 } : Column) ∈ reindexColumns l :=
  mem_mapFrom_of_mem _ l 0 a h

/-- C5: a successful column update whose payload carries a (non-empty,
non-colliding) new name and no cards array leaves the renamed column present
and rewrites the status of every one of its cards to the new trimmed name;
after the operation every column bearing the new name satisfies
`card.status == containing_column.name` for all its cards. -/
theorem C5_rename_mirrors_status (stored : List RawColumn) (cname rawName : String)
    (ord : Option Int) (now : Int) (cols2 : List Column)
    (hOk : updateColumnOp stored cname (some rawName) ord none now = .ok cols2) :
    normalizeColumnName rawName ≠ "" ∧
    (∃ c ∈ cols2, c.name = normalizeColumnName rawName) ∧
    (∀ c ∈ cols2, c.name = normalizeColumnName rawName →
      ∀ card ∈ c.cards, card.status = normalizeColumnName rawName) := by
  simp only [updateColumnOp, Option.isSome_some, Bool.true_or, Bool.not_true] at hOk
  rw [if_neg (by simp)] at hOk
  split at hOk
  case _ => exact absurd hOk (by simp)
  case _ idx hf =>
    by_cases hn : normalizeColumnName rawName = ""
    · rw [if_pos hn] at hOk
      simp at hOk
    rw [if_neg hn] at hOk
    by_cases hex : columnNameExists (sanitizeColumns stored false now)
        (normalizeColumnName rawName) (some idx) = true
    · rw [if_pos hex] at hOk
      simp at hOk
    rw [if_neg hex] at hOk
    simp only [] at hOk
    have hexf : columnNameExists (sanitizeColumns stored false now)
        (normalizeColumnName rawName) (some idx) = false := by
      simpa using hex
    have hidx := findColumnIndex_eq_some _ _ _ hf
    have hci := columnNameExists_false_forall (sanitizeColumns stored false now)
      (normalizeColumnName rawName) (some idx)
      (jsTrim_ne_of_normalize_ne rawName hn) hexf
    set columns := sanitizeColumns stored false now with hcolumns
    set nn := normalizeColumnName rawName with hnn
    set col1 : Column :=
      { columns.getD idx default with
        name := nn
        cards := (columns.getD idx default).cards.map
          fun card => { card with status := nn } } with hcol1
    have hcol1name : col1.name = nn := rfl
    have hcol1cards : ∀ card ∈ col1.cards, card.status = nn := by
      intro card hcard
      rcases List.mem_map.1 hcard with ⟨c0, _, hc0⟩
      rw [← hc0]
    have key : ∀ moved : List Column,
        (∀ a ∈ moved, a = col1 ∨ ∃ k, k < columns.length ∧ k ≠ idx ∧ columns.getD k default = a) →
        col1 ∈ moved →
        reindexColumns moved = cols2 →
        (∃ c ∈ cols2, c.name = nn) ∧
        (∀ c ∈ cols2, c.name = nn → ∀ card ∈ c.cards, card.status = nn) := by
      intro moved hdecomp hmem heq
      constructor
      · rcases mem_reindexColumns_of_mem moved col1 hmem with ⟨k, hk⟩
        rw [heq] at hk
        exact ⟨_, hk, hcol1name⟩
      · intro c hc hcname card hcard
        rw [← heq] at hc
        rcases mem_reindexColumns moved c hc with ⟨k, a, ha, hca⟩
        have hnamea : c.name = a.name := by rw [hca]
        have hcardsa : c.cards = a.cards := by rw [hca]
        rcases hdecomp a ha with h1 | ⟨k2, hk2, hk2ne, hk2a⟩
        · subst h1
          apply hcol1cards
          rw [← hcardsa]
          exact hcard
        · exfalso
          have hciK := hci k2 hk2 (by simp [Ne.symm hk2ne])
          apply hciK
          rw [hk2a]
          rw [← hnamea, hcname]
      ---
    have hmemset : col1 ∈ columns.set idx col1 := self_mem_set columns idx col1 hidx.1
    have hdecompset : ∀ a ∈ columns.set idx col1,
        a = col1 ∨ ∃ k, k < columns.length ∧ k ≠ idx ∧ columns.getD k default = a := by
      intro a ha
      rcases mem_set_cases default columns idx col1 a ha with ⟨_, h⟩ | ⟨k, hk, hkne, hka⟩
      · exact Or.inl h
      · exact Or.inr ⟨k, hk, hkne, hka⟩
    cases ord with
    | none =>
      injection hOk with h2
      exact ⟨hn, key (columns.set idx col1) hdecompset hmemset h2⟩
    | some o =>
      injection hOk with h2
      refine ⟨hn, key _ ?_ (self_mem_spliceIn _ _ _) h2⟩
      intro a ha
      rcases mem_spliceIn _ _ _ _ ha with h1 | h1
      · exact Or.inl h1
      · exact hdecompset a (mem_removeAt _ _ _ h1)

/-- C5, witness: renaming "A" to " C " (trimmed to "C") on a concrete board
whose "A" column holds one card of status "A". -/
theorem C5_rename_mirrors_status_witness :
    normalizeColumnName " C " ≠ "" ∧
    (∃ c ∈ [({ name := "C", order := 1,
               cards := [{ title := "c1", description := "", status := "C",
                           assignee := none, dueDate := 0 }] } : Column),
            { name := "B", order := 2, cards := [] }], c.name = normalizeColumnName " C ") ∧
    (∀ c ∈ [({ name := "C", order := 1,
               cards := [{ title := "c1", description := "", status := "C",
                           assignee := none, dueDate := 0 }] } : Column),
            { name := "B", order := 2, cards := [] }],
      c.name = normalizeColumnName " C " →
      ∀ card ∈ c.cards, card.status = normalizeColumnName " C ") :=
  C5_rename_mirrors_status
    [⟨"A", some 1, some [⟨"c1", "", "A", none, some 0⟩]⟩, ⟨"B", some 2, none⟩]
    "a" " C " none 0
    [{ name := "C", order := 1,
       cards := [{ title := "c1", description := "", status := "C",
                   assignee := none, dueDate := 0 }] },
     { name := "B", order := 2, cards := [] }]
    rfl

/-! ### Claim C6 -/

/-- All strings in the list pairwise distinct. -/
def allDistinct : List String → Bool
  | [] => true
  | x :: xs => (!xs.contains x) && allDistinct xs

/-- The claim's column-name invariant as a decidable check: every name
non-empty and equal to its trimmed form, and the trimmed lowercased names
pairwise distinct. -/
def namesInvariant (l : List Column) : Bool :=
  l.all (fun c => (c.name != "") && (c.name == jsTrim c.name)) &&
    allDistinct (l.map (fun c => jsToLower (jsTrim c.name)))

/-- C6, counterexample: a project update whose columns payload is
`[{name: " A "}, {name: "a"}]` persists the names verbatim — " A " is not
trimmed and collides case-insensitively with "a" — so the persisted list
violates the claimed invariant. -/
theorem C6_counterexample :
    namesInvariant (projectUpdateColumns [⟨" A ", none, none⟩, ⟨"a", none, none⟩] 0) = false ∧
    (projectUpdateColumns [⟨" A ", none, none⟩, ⟨"a", none, none⟩] 0).map Column.name =
      [" A ", "a"] :=
  ⟨rfl, rfl⟩

theorem string_append_column_ne (s : String) : ("Column " ++ s) ≠ "" := by
  intro h
  have hlen := congrArg String.length h
  rw [String.length_append] at hlen
  have h7 : ("Column " : String).length = 7 := rfl
  have h0 : ("" : String).length = 0 := rfl
  rw [h7, h0] at hlen
  omega

theorem normalizeOne_name_ne_empty (e : Bool) (now : Int) (i : Nat) (col : RawColumn) :
    (normalizeOne e now i col).name ≠ "" := by
  simp only [normalizeOne]
  by_cases h1 : col.name ≠ ""
  · rw [if_pos h1]; exact h1
  · rw [if_neg h1]
    by_cases h2 : (fallbackColumnAt i).name ≠ ""
    · rw [if_pos h2]; exact h2
    · rw [if_neg h2]; exact string_append_column_ne _

theorem normalizeColumns_names_ne_empty (cols : List RawColumn) (e : Bool) (now : Int)
    (c : Column) (hmem : c ∈ normalizeColumns cols e now) : c.name ≠ "" := by
  by_cases hc : cols.isEmpty
  · have hcols : cols = [] := by
      cases cols
      · rfl
      · simp [List.isEmpty] at hc
    subst hcols
    have hval : normalizeColumns [] e now =
        [⟨"To Do", 1, [⟨"Task 1", "Scrum 1 default work item", "To Do", none, now⟩]⟩,
         ⟨"In Progress", 2, []⟩, ⟨"In Review", 3, []⟩, ⟨"Done", 4, []⟩] := rfl
    rw [hval] at hmem
    simp only [List.mem_cons, List.not_mem_nil, or_false] at hmem
    rcases hmem with h | h | h | h
    · rw [h]; show "To Do" ≠ ""; decide
    · rw [h]; show "In Progress" ≠ ""; decide
    · rw [h]; show "In Review" ≠ ""; decide
    · rw [h]; show "Done" ≠ ""; decide
  · rw [normalizeColumns, if_neg hc] at hmem
    rcases mem_mapFrom _ cols 0 c hmem with ⟨i, a, _, hca⟩
    rw [hca]
    exact normalizeOne_name_ne_empty e now i a

theorem spliceIn_index_le (columns : List Column) (ord : Option Int) :
    (match ord with
      | some o => if 0 < o then min (o - 1).toNat columns.length else columns.length
      | none => columns.length) ≤ columns.length := by
  rcases ord with _ | o
  · exact Nat.le_refl _
  · by_cases h0 : 0 < o
    · simp only [if_pos h0]
      exact Nat.min_le_right _ _
    · simp only [if_neg h0]
      exact Nat.le_refl _

theorem createColumnOp_ok_name (stored : List RawColumn) (nm : String) (ord : Option Int)
    (cards : Option (List RawCard)) (now : Int) (r : Column × List Column)
    (h : createColumnOp stored nm ord cards now = .ok r) :
    r.1.name = normalizeColumnName nm ∧ normalizeColumnName nm ≠ "" ∧
      columnNameExists (sanitizeColumns stored false now) (normalizeColumnName nm) none =
        false := by
  simp only [createColumnOp] at h
  split at h
  case _ => exact absurd h (by simp)
  case _ hn =>
    split at h
    case _ => exact absurd h (by simp)
    case _ hex =>
      injection h with h2
      have hexf : columnNameExists (sanitizeColumns stored false now)
          (normalizeColumnName nm) none = false := by simpa using hex
      refine ⟨?_, hn, hexf⟩
      rw [← h2]
      set columns := sanitizeColumns stored false now with hcolumns
      set prep := (normalizeColumns
        [{ name := normalizeColumnName nm, order := ord, cards := cards }]
        false now).headI with hprep
      set k := (match ord with
        | some o => if 0 < o then min (o - 1).toNat columns.length else columns.length
        | none => columns.length) with hk
      have hkle : k ≤ columns.length := spliceIn_index_le columns ord
      have hklt : k < (spliceIn columns k prep).length := by
        rw [length_spliceIn _ _ _ hkle]
        omega
      have hgoal : ((reindexColumns (spliceIn columns k prep)).getD k default).name =
          normalizeColumnName nm := by
        rw [getD_reindexColumns _ k hklt]
        rw [getD_spliceIn_self _ default columns k hkle]
        have hpn : prep = normalizeOne false now 0 ⟨normalizeColumnName nm, ord, cards⟩ := rfl
        rw [hpn]
        simp [normalizeOne, hn]
      exact hgoal

theorem updateColumnOp_rename_checked (stored : List RawColumn) (cname rawName : String)
    (ord : Option Int) (cards : Option (List RawCard)) (now : Int) (cols2 : List Column)
    (h : updateColumnOp stored cname (some rawName) ord cards now = .ok cols2) :
    normalizeColumnName rawName ≠ "" ∧
    (∀ i, findColumnIndex (sanitizeColumns stored false now) cname = some i →
      columnNameExists (sanitizeColumns stored false now) (normalizeColumnName rawName)
        (some i) = false) := by
  simp only [updateColumnOp, Option.isSome_some, Bool.true_or, Bool.not_true] at h
  rw [if_neg (by simp)] at h
  split at h
  case _ => exact absurd h (by simp)
  case _ idx hf =>
    by_cases hn : normalizeColumnName rawName = ""
    · rw [if_pos hn] at h
      simp at h
    rw [if_neg hn] at h
    by_cases hex : columnNameExists (sanitizeColumns stored false now)
        (normalizeColumnName rawName) (some idx) = true
    · rw [if_pos hex] at h
      simp at h
    refine ⟨hn, ?_⟩
    intro i hi
    rw [hf] at hi
    injection hi with hi2
    rw [← hi2]
    simpa using hex

/-- C6, amended: every column name produced by normalization is non-empty, and
the dedicated column endpoints enforce the rest of the invariant for the name
they introduce — a created column's persisted name is the trimmed, non-empty
request name and passes the case-insensitive duplicate check against the
sanitized board, and a successful rename likewise passed the non-empty and
case-insensitive collision checks.  Project create/update with a columns
payload, however, persist client-supplied names verbatim (possibly untrimmed
or case-insensitively duplicated), so the full invariant does not hold for
those operations. -/
theorem C6_name_invariant :
    (∀ (cols : List RawColumn) (e : Bool) (now : Int) (c : Column),
      c ∈ normalizeColumns cols e now → c.name ≠ "") ∧
    (∀ (stored : List RawColumn) (nm : String) (ord : Option Int)
        (cards : Option (List RawCard)) (now : Int) (r : Column × List Column),
      createColumnOp stored nm ord cards now = .ok r →
      r.1.name = normalizeColumnName nm ∧ normalizeColumnName nm ≠ "" ∧
        columnNameExists (sanitizeColumns stored false now) (normalizeColumnName nm) none =
          false) ∧
    (∀ (stored : List RawColumn) (cname rawName : String) (ord : Option Int)
        (cards : Option (List RawCard)) (now : Int) (cols2 : List Column),
      updateColumnOp stored cname (some rawName) ord cards now = .ok cols2 →
      normalizeColumnName rawName ≠ "" ∧
      (∀ i, findColumnIndex (sanitizeColumns stored false now) cname = some i →
        columnNameExists (sanitizeColumns stored false now) (normalizeColumnName rawName)
          (some i) = false)) :=
  ⟨normalizeColumns_names_ne_empty, createColumnOp_ok_name, updateColumnOp_rename_checked⟩

/-- C6, witness: the three guarantees evaluated on concrete boards. -/
theorem C6_name_invariant_witness :
    (({ name := "To Do", order := 1,
        cards := [{ title := "Task 1", description := "Scrum 1 default work item",
                    status := "To Do", assignee := none, dueDate := 0 }] } : Column).name ≠ "") ∧
    ((({ name := "N", order := 1, cards := [] } : Column),
        [({ name := "N", order := 1, cards := [] } : Column)]).1.name =
      normalizeColumnName " N " ∧ normalizeColumnName " N " ≠ "" ∧
      columnNameExists (sanitizeColumns [] false 0) (normalizeColumnName " N ") none = false) ∧
    (normalizeColumnName " C " ≠ "" ∧
      (∀ i, findColumnIndex (sanitizeColumns
          [⟨"A", some 1, some [⟨"c1", "", "A", none, some 0⟩]⟩, ⟨"B", some 2, none⟩]
          false 0) "a" = some i →
        columnNameExists (sanitizeColumns
          [⟨"A", some 1, some [⟨"c1", "", "A", none, some 0⟩]⟩, ⟨"B", some 2, none⟩]
          false 0) (normalizeColumnName " C ") (some i) = false)) :=
  ⟨C6_name_invariant.1 [] true 0 _ (by simp [normalizeColumns, mapFrom, DEFAULT_BOARD_COLUMNS,
      createDefaultCards]),
   C6_name_invariant.2.1 [] " N " none none 0 _ rfl,
   C6_name_invariant.2.2 [⟨"A", some 1, some [⟨"c1", "", "A", none, some 0⟩]⟩,
      ⟨"B", some 2, none⟩] "a" " C " none none 0
      [{ name := "C", order := 1,
         cards := [{ title := "c1", description := "", status := "C",
                     assignee := none, dueDate := 0 }] },
       { name := "B", order := 2, cards := [] }] rfl⟩

/-! ### Claim C9 -/

/-- The raw descriptor a canonical card round-trips through when a persisted
board is sent back to the normalizer. -/
def toRawCard (c : Card) : RawCard :=
  ⟨c.title, c.description, c.status, c.assignee, some c.dueDate⟩

/-- The raw descriptor a canonical column round-trips through. -/
def toRawColumn (c : Column) : RawColumn :=
  ⟨c.name, some c.order, some (c.cards.map toRawCard)⟩

/-- The card fields a normalizer output always satisfies: non-empty title and
status, and no empty-string assignee. -/
def CardWF (c : Card) : Prop :=
  c.title ≠ "" ∧ c.status ≠ "" ∧ ∀ a, c.assignee = some a → a ≠ ""

theorem map_id_of_forall (f : α → α) : ∀ l : List α, (∀ x ∈ l, f x = x) → l.map f = l := by
  intro l
  induction l with
  | nil => intro _; rfl
  | cons x xs ih =>
    intro h
    simp only [List.map_cons]
    rw [h x (by simp), ih (fun y hy => h y (by simp [hy]))]

theorem prepareCard_roundtrip (name2 : String) (now : Int) (c : Card) (h : CardWF c) :
    prepareCard name2 now (toRawCard c) = c := by
  cases c with
  | mk t d s asg due =>
    obtain ⟨ht, hs, ha⟩ := h
    simp only [prepareCard, toRawCard, Card.mk.injEq]
    refine ⟨if_neg ht, ?_, if_neg hs, ?_, trivial⟩
    · by_cases hd : d = ""
      · rw [if_pos hd, hd]
      · exact if_neg hd
    · cases asg with
      | none => rfl
      | some a =>
        have haa : a ≠ "" := ha a rfl
        exact if_neg haa

theorem prepareCard_wf (columnName : String) (now : Int) (rc : RawCard)
    (hname : columnName ≠ "") : CardWF (prepareCard columnName now rc) := by
  refine ⟨?_, ?_, ?_⟩
  · show (if rc.title = "" then "Scrum 1" else rc.title) ≠ ""
    by_cases h : rc.title = ""
    · rw [if_pos h]; decide
    · rw [if_neg h]; exact h
  · show (if rc.status = "" then columnName else rc.status) ≠ ""
    by_cases h : rc.status = ""
    · rw [if_pos h]; exact hname
    · rw [if_neg h]; exact h
  · intro a hassign
    show a ≠ ""
    revert hassign
    show (match rc.assignee with
      | some b => if b = "" then none else some b
      | none => none) = some a → a ≠ ""
    cases hb : rc.assignee with
    | none => intro hcontra; exact absurd hcontra (by simp)
    | some b =>
      by_cases hbe : b = ""
      · simp [hbe]
      · simp only [if_neg hbe]
        intro hba
        injection hba with hba
        rw [← hba]
        exact hbe

theorem createDefaultCards_wf (cfg : DefaultCardConfig) (now : Int) :
    ∀ card ∈ createDefaultCards cfg now, CardWF card := by
  intro card hcard
  simp only [createDefaultCards] at hcard
  by_cases h : !cfg.defaultCard
  · rw [if_pos h] at hcard
    simp at hcard
  · rw [if_neg h] at hcard
    simp only [List.mem_singleton] at hcard
    subst hcard
    refine ⟨?_, ?_, ?_⟩
    · show ("Task 1" : String) ≠ ""
      decide
    · show (if cfg.name = "" then "To Do" else cfg.name) ≠ ""
      by_cases hn : cfg.name = ""
      · rw [if_pos hn]; decide
      · rw [if_neg hn]; exact hn
    · intro a ha
      exact absurd (show (none : Option String) = some a from ha) (by simp)

theorem normalizeOne_name_eq (e : Bool) (now : Int) (i : Nat) (col : RawColumn) :
    (normalizeOne e now i col).name =
      if col.name ≠ "" then col.name
      else if (fallbackColumnAt i).name ≠ "" then (fallbackColumnAt i).name
      else "Column " ++ toString (i + 1) := rfl

theorem normalizeOne_order_eq (e : Bool) (now : Int) (i : Nat) (col : RawColumn) :
    (normalizeOne e now i col).order =
      (match col.order with
        | some o => o
        | none => (i : Int) + 1) := rfl

theorem normalizeOne_cards_eq (e : Bool) (now : Int) (i : Nat) (col : RawColumn) :
    (normalizeOne e now i col).cards =
      (if (match col.cards with
          | some cs => cs.map (prepareCard (normalizeOne e now i col).name now)
          | none => []) ≠ [] then
        (match col.cards with
          | some cs => cs.map (prepareCard (normalizeOne e now i col).name now)
          | none => [])
      else if e then
        createDefaultCards
          ⟨(normalizeOne e now i col).name, (fallbackColumnAt i).defaultCard⟩ now
      else []) := rfl

theorem normalizeOne_cards_wf (e : Bool) (now : Int) (i : Nat) (col : RawColumn) :
    ∀ card ∈ (normalizeOne e now i col).cards, CardWF card := by
  intro card hcard
  rw [normalizeOne_cards_eq] at hcard
  have hname := normalizeOne_name_ne_empty e now i col
  split at hcard
  · cases hcs : col.cards with
    | none => rw [hcs] at hcard; simp at hcard
    | some cs =>
      rw [hcs] at hcard
      simp only [List.mem_map] at hcard
      rcases hcard with ⟨rc, _, hrc⟩
      rw [← hrc]
      exact prepareCard_wf _ now rc hname
  · split at hcard
    · exact createDefaultCards_wf _ now card hcard
    · simp at hcard

theorem normalizeOne_roundtrip_abstract (e : Bool) (now : Int) (i : Nat) (c : Column)
    (hname : c.name ≠ "")
    (hwf : ∀ card ∈ c.cards, CardWF card)
    (hempty : c.cards = [] →
      (if e then
        createDefaultCards ⟨c.name, (fallbackColumnAt i).defaultCard⟩ now
      else []) = []) :
    normalizeOne e now i (toRawColumn c) = c := by
  cases c with
  | mk nm ord cds =>
    simp only [Column.mk.injEq] at hname hwf hempty ⊢
    have h1 : (normalizeOne e now i (toRawColumn ⟨nm, ord, cds⟩)).name = nm := by
      rw [normalizeOne_name_eq]
      exact if_pos hname
    have h2 : (normalizeOne e now i (toRawColumn ⟨nm, ord, cds⟩)).order = ord := rfl
    have hmaps : (cds.map toRawCard).map (prepareCard nm now) = cds := by
      rw [List.map_map]
      exact map_id_of_forall _ cds (fun x hx => prepareCard_roundtrip nm now x (hwf x hx))
    have h3 : (normalizeOne e now i (toRawColumn ⟨nm, ord, cds⟩)).cards = cds := by
      rw [normalizeOne_cards_eq, h1]
      show (if (cds.map toRawCard).map (prepareCard nm now) ≠ [] then
          (cds.map toRawCard).map (prepareCard nm now)
        else if e then createDefaultCards ⟨nm, (fallbackColumnAt i).defaultCard⟩ now
        else []) = cds
      rw [hmaps]
      by_cases hcds : cds = []
      · rw [if_neg (by simp [hcds])]
        rw [hempty hcds, hcds]
      · rw [if_pos hcds]
    calc normalizeOne e now i (toRawColumn ⟨nm, ord, cds⟩)
        = ⟨(normalizeOne e now i (toRawColumn ⟨nm, ord, cds⟩)).name,
           (normalizeOne e now i (toRawColumn ⟨nm, ord, cds⟩)).order,
           (normalizeOne e now i (toRawColumn ⟨nm, ord, cds⟩)).cards⟩ := rfl
      _ = ⟨nm, ord, cds⟩ := by rw [h1, h2, h3]

theorem normalizeOne_roundtrip (e : Bool) (now : Int) (i : Nat) (col : RawColumn) :
    normalizeOne e now i (toRawColumn (normalizeOne e now i col)) =
      normalizeOne e now i col := by
  apply normalizeOne_roundtrip_abstract
  · exact normalizeOne_name_ne_empty e now i col
  · exact normalizeOne_cards_wf e now i col
  · intro hc
    cases e with
    | false => rfl
    | true =>
      simp only [if_true]
      rw [normalizeOne_cards_eq] at hc
      split at hc
      · exact absurd hc (by assumption)
      · split at hc
        · exact hc
        · simp at *

theorem mapFrom_normalizeOne_roundtrip (e : Bool) (now : Int) :
    ∀ (l : List RawColumn) (s : Nat),
      mapFrom (normalizeOne e now) s
          ((mapFrom (normalizeOne e now) s l).map toRawColumn) =
        mapFrom (normalizeOne e now) s l := by
  intro l
  induction l with
  | nil => intro s; rfl
  | cons x xs ih =>
    intro s
    simp only [mapFrom, List.map_cons]
    rw [normalizeOne_roundtrip, ih (s + 1)]

/-- C9: `normalizeColumns` is idempotent — feeding its output (as the raw
descriptors a client or the database would hand back) through the normalizer
again, with the same flag and the same current-time source, reproduces the
output unchanged. -/
theorem C9_normalize_idempotent (cols : List RawColumn) (e : Bool) (now : Int) :
    normalizeColumns ((normalizeColumns cols e now).map toRawColumn) e now =
      normalizeColumns cols e now := by
  cases cols with
  | nil => cases e <;> rfl
  | cons x xs =>
    have hinner : normalizeColumns (x :: xs) e now =
        mapFrom (normalizeOne e now) 0 (x :: xs) := by
      rw [normalizeColumns, if_neg (by simp)]
    rw [hinner]
    rw [normalizeColumns, if_neg (by simp [mapFrom])]
    exact mapFrom_normalizeOne_roundtrip e now (x :: xs) 0

/-! ### Claim C8: invite-flow lemmas -/

theorem mem_dedupFirstAux : ∀ (l seen : List String) (x : String),
    x ∈ dedupFirstAux seen l ↔ (x ∈ l ∧ x ∉ seen) := by
  intro l
  induction l with
  | nil => intro seen x; simp [dedupFirstAux]
  | cons y ys ih =>
    intro seen x
    simp only [dedupFirstAux]
    by_cases hy : seen.contains y
    · rw [if_pos hy]
      rw [ih seen x]
      have hymem : y ∈ seen := List.elem_iff.mp hy
      constructor
      · intro ⟨h1, h2⟩
        exact ⟨List.mem_cons_of_mem _ h1, h2⟩
      · intro ⟨h1, h2⟩
        rcases List.mem_cons.1 h1 with h | h
        · subst h; exact absurd hymem h2
        · exact ⟨h, h2⟩
    · rw [if_neg hy]
      have hynot : y ∉ seen := fun hc => hy (List.elem_iff.mpr hc)
      simp only [List.mem_cons]
      rw [ih (y :: seen) x]
      constructor
      · intro h
        rcases h with h | ⟨h1, h2⟩
        · subst h; exact ⟨Or.inl rfl, hynot⟩
        · simp only [List.mem_cons, not_or] at h2
          exact ⟨Or.inr h1, h2.2⟩
      · intro ⟨h1, h2⟩
        rcases h1 with h | h
        · exact Or.inl h
        · by_cases hxy : x = y
          · exact Or.inl hxy
          · exact Or.inr ⟨h, by simp [List.mem_cons, hxy, h2]⟩

theorem nodup_dedupFirstAux : ∀ (l seen : List String), (dedupFirstAux seen l).Nodup := by
  intro l
  induction l with
  | nil => intro seen; exact List.nodup_nil
  | cons y ys ih =>
    intro seen
    simp only [dedupFirstAux]
    by_cases hy : seen.contains y
    · rw [if_pos hy]; exact ih seen
    · rw [if_neg hy]
      refine List.nodup_cons.2 ⟨?_, ih (y :: seen)⟩
      intro hc
      have := (mem_dedupFirstAux ys (y :: seen) y).1 hc
      exact this.2 (by simp)

theorem nodup_dedupFirst (l : List String) : (dedupFirst l).Nodup :=
  nodup_dedupFirstAux l []

theorem foldl_pick_eq_some (P : UserRec → Prop) [DecidablePred P] :
    ∀ (l : List UserRec) (acc : Option UserRec) (v : UserRec),
      l.foldl (fun acc u => if P u then some u else acc) acc = some v →
      (v ∈ l ∧ P v) ∨ acc = some v := by
  intro l
  induction l with
  | nil => intro acc v h; exact Or.inr h
  | cons x xs ih =>
    intro acc v h
    rw [List.foldl_cons] at h
    rcases ih _ v h with ⟨h1, h2⟩ | h1
    · exact Or.inl ⟨List.mem_cons_of_mem _ h1, h2⟩
    · by_cases hp : P x
      · rw [if_pos hp] at h1
        injection h1 with h1
        subst h1
        exact Or.inl ⟨by simp, hp⟩
      · rw [if_neg hp] at h1
        exact Or.inr h1

theorem userByEmail_eq_some (users : List UserRec) (nes : List String) (t : String)
    (u : UserRec) (h : userByEmail users nes t = some u) :
    u ∈ users ∧ normalizeEmail u.email = t := by
  unfold userByEmail at h
  rcases foldl_pick_eq_some (fun u => normalizeEmail u.email = t) _ none u h with ⟨h1, h2⟩ | h1
  · exact ⟨List.mem_of_mem_filter h1, h2⟩
  · exact absurd h1 (by simp)

theorem userByEmail_distinct_ids (users : List UserRec) (nes : List String)
    (t1 t2 : String) (u1 u2 : UserRec)
    (hIds : (users.map UserRec.id).Nodup)
    (h1 : userByEmail users nes t1 = some u1)
    (h2 : userByEmail users nes t2 = some u2)
    (hne : t1 ≠ t2) : u1.id ≠ u2.id := by
  intro hid
  rcases userByEmail_eq_some users nes t1 u1 h1 with ⟨hm1, he1⟩
  rcases userByEmail_eq_some users nes t2 u2 h2 with ⟨hm2, he2⟩
  have : u1 = u2 := List.inj_on_of_nodup_map hIds hm1 hm2 hid
  subst this
  rw [he1] at he2
  exact hne he2

theorem get_map_own (f : α → β) : ∀ (l : List α) (k : Nat) (h1 : k < l.length)
    (h2 : k < (l.map f).length), (l.map f).get ⟨k, h2⟩ = f (l.get ⟨k, h1⟩) := by
  intro l
  induction l with
  | nil => intro k h1 _; simp at h1
  | cons x xs ih =>
    intro k h1 h2
    cases k with
    | zero => rfl
    | succ j => exact ih j (by simpa using h1) (by simpa using h2)

theorem get_append_left_own : ∀ (l1 l2 : List α) (k : Nat) (h1 : k < l1.length)
    (h2 : k < (l1 ++ l2).length), (l1 ++ l2).get ⟨k, h2⟩ = l1.get ⟨k, h1⟩ := by
  intro l1
  induction l1 with
  | nil => intro l2 k h1 _; simp at h1
  | cons x xs ih =>
    intro l2 k h1 h2
    cases k with
    | zero => rfl
    | succ j => exact ih l2 j (by simpa using h1) (by simpa using h2)

theorem length_markInviteAccepted (invites : List Invite) (t : String) (now : Int) :
    (markInviteAccepted invites t now).length = invites.length := by
  simp [markInviteAccepted]

theorem get_markInviteAccepted (invites : List Invite) (t : String) (now : Int)
    (k : Nat) (hk : k < invites.length)
    (hk2 : k < (markInviteAccepted invites t now).length) :
    (markInviteAccepted invites t now).get ⟨k, hk2⟩ =
      (if (invites.get ⟨k, hk⟩).email = t ∧ (invites.get ⟨k, hk⟩).status = "pending" then
        { invites.get ⟨k, hk⟩ with status := "accepted", acceptedAt := some now }
      else invites.get ⟨k, hk⟩) := by
  unfold markInviteAccepted
  exact get_map_own _ invites k hk (by simpa [markInviteAccepted] using hk2)

/-- Loop invariant before the target email has been processed: the invite list
still agrees with the project's on every invite addressed to the target email,
no member entry for the target user has been scheduled, and no new invite for
the target email has been buffered. -/
def InvitePre (project : ProjectDoc) (targetEmail : String) (u : UserRec)
    (st : InviteState) : Prop :=
  st.invites.length = project.invites.length ∧
  (∀ (k : Nat) (hk : k < project.invites.length) (hk2 : k < st.invites.length),
    (project.invites.get ⟨k, hk⟩).email = targetEmail →
    st.invites.get ⟨k, hk2⟩ = project.invites.get ⟨k, hk⟩) ∧
  (∀ m ∈ st.membersToAdd, m.user ≠ u.id) ∧
  (∀ inv ∈ st.invitesToAdd, inv.email ≠ targetEmail)

/-- Loop invariant after the target email has been processed: the collaborator
member entry is scheduled, the email is reported under `addedMembers`, every
originally-pending invite for the email has been flipped to accepted (others
untouched), and no new invite for the email has been buffered. -/
def InvitePost (project : ProjectDoc) (requester : Nat) (now : Int) (targetEmail : String)
    (u : UserRec) (st : InviteState) : Prop :=
  st.invites.length = project.invites.length ∧
  (∀ (k : Nat) (hk : k < project.invites.length) (hk2 : k < st.invites.length),
    (project.invites.get ⟨k, hk⟩).email = targetEmail →
    st.invites.get ⟨k, hk2⟩ =
      (if (project.invites.get ⟨k, hk⟩).status = "pending" then
        { project.invites.get ⟨k, hk⟩ with status := "accepted", acceptedAt := some now }
      else project.invites.get ⟨k, hk⟩)) ∧
  (⟨u.id, "collaborator", requester, now⟩ : Member) ∈ st.membersToAdd ∧
  (∀ inv ∈ st.invitesToAdd, inv.email ≠ targetEmail) ∧
  targetEmail ∈ st.addedMembers

theorem inviteStep_pre (requester : Nat) (project : ProjectDoc) (users : List UserRec)
    (nes : List String) (now : Int) (targetEmail : String) (u : UserRec)
    (hIds : (users.map UserRec.id).Nodup)
    (hUser : userByEmail users nes targetEmail = some u)
    (e : String) (he : e ≠ targetEmail) (st : InviteState)
    (hp : InvitePre project targetEmail u st) :
    InvitePre project targetEmail u (inviteStep requester project users nes now st e) := by
  obtain ⟨P1, P2, P3, P4⟩ := hp
  unfold inviteStep
  cases hu2 : userByEmail users nes e with
  | some u2 =>
    simp only []
    by_cases hsch : (st.membersToAdd.any (fun member => member.user == u2.id)
        || isProjectMember project u2.id) = true
    · rw [if_pos hsch]
      exact ⟨P1, P2, P3, P4⟩
    · rw [if_neg hsch]
      refine ⟨?_, ?_, ?_, P4⟩
      · show (markInviteAccepted st.invites e now).length = project.invites.length
        rw [length_markInviteAccepted]
        exact P1
      · intro k hk hk2 hmail
        have hk2b : k < st.invites.length := by
          rw [length_markInviteAccepted] at hk2
          exact hk2
        show (markInviteAccepted st.invites e now).get ⟨k, hk2⟩ = project.invites.get ⟨k, hk⟩
        rw [get_markInviteAccepted st.invites e now k hk2b hk2]
        rw [P2 k hk hk2b hmail]
        refine if_neg ?_
        intro ⟨hc, _⟩
        rw [hmail] at hc
        exact he hc.symm
      · intro m hm
        rcases List.mem_append.1 hm with hm | hm
        · exact P3 m hm
        · simp only [List.mem_singleton] at hm
          subst hm
          show u2.id ≠ u.id
          exact userByEmail_distinct_ids users nes e targetEmail u2 u hIds hu2 hUser he
  | none =>
    simp only []
    by_cases hpend : (st.invites.any fun invite =>
        invite.email == e && invite.status == "pending") = true
    · rw [if_pos hpend]
      exact ⟨P1, P2, P3, P4⟩
    · rw [if_neg hpend]
      refine ⟨P1, P2, P3, ?_⟩
      intro inv hinv
      rcases List.mem_append.1 hinv with hi | hi
      · exact P4 inv hi
      · simp only [List.mem_singleton] at hi
        subst hi
        show e ≠ targetEmail
        exact he

theorem inviteStep_at_target (requester : Nat) (project : ProjectDoc) (users : List UserRec)
    (nes : List String) (now : Int) (targetEmail : String) (u : UserRec)
    (hUser : userByEmail users nes targetEmail = some u)
    (hNotMember : isProjectMember project u.id = false)
    (st : InviteState)
    (hp : InvitePre project targetEmail u st) :
    InvitePost project requester now targetEmail u
      (inviteStep requester project users nes now st targetEmail) := by
  obtain ⟨P1, P2, P3, P4⟩ := hp
  unfold inviteStep
  rw [hUser]
  simp only []
  have hany : (st.membersToAdd.any fun member => member.user == u.id) = false := by
    rw [List.any_eq_false]
    intro m hm
    simp only [beq_iff_eq]
    exact P3 m hm
  have hcond : ((st.membersToAdd.any fun member => member.user == u.id)
      || isProjectMember project u.id) = false := by
    rw [hany, hNotMember]
    rfl
  rw [if_neg (by rw [hcond]; simp)]
  refine ⟨?_, ?_, ?_, P4, ?_⟩
  · show (markInviteAccepted st.invites targetEmail now).length = project.invites.length
    rw [length_markInviteAccepted]
    exact P1
  · intro k hk hk2 hmail
    have hk2b : k < st.invites.length := by
      rw [length_markInviteAccepted] at hk2
      exact hk2
    show (markInviteAccepted st.invites targetEmail now).get ⟨k, hk2⟩ = _
    rw [get_markInviteAccepted st.invites targetEmail now k hk2b hk2]
    rw [P2 k hk hk2b hmail]
    by_cases hst : (project.invites.get ⟨k, hk⟩).status = "pending"
    · rw [if_pos ⟨hmail, hst⟩, if_pos hst]
    · rw [if_neg (fun hc => hst hc.2), if_neg hst]
  · show _ ∈ st.membersToAdd ++ [(⟨u.id, "collaborator", requester, now⟩ : Member)]
    exact List.mem_append_right _ (by simp)
  · show targetEmail ∈ st.addedMembers ++ [targetEmail]
    exact List.mem_append_right _ (by simp)

theorem inviteStep_post (requester : Nat) (project : ProjectDoc) (users : List UserRec)
    (nes : List String) (now : Int) (targetEmail : String) (u : UserRec)
    (e : String) (he : e ≠ targetEmail) (st : InviteState)
    (hq : InvitePost project requester now targetEmail u st) :
    InvitePost project requester now targetEmail u
      (inviteStep requester project users nes now st e) := by
  obtain ⟨Q1, Q2, Q3, Q4, Q5⟩ := hq
  unfold inviteStep
  cases hu2 : userByEmail users nes e with
  | some u2 =>
    simp only []
    by_cases hsch : (st.membersToAdd.any (fun member => member.user == u2.id)
        || isProjectMember project u2.id) = true
    · rw [if_pos hsch]
      exact ⟨Q1, Q2, Q3, Q4, Q5⟩
    · rw [if_neg hsch]
      refine ⟨?_, ?_, ?_, Q4, ?_⟩
      · show (markInviteAccepted st.invites e now).length = project.invites.length
        rw [length_markInviteAccepted]
        exact Q1
      · intro k hk hk2 hmail
        have hk2b : k < st.invites.length := by
          rw [length_markInviteAccepted] at hk2
          exact hk2
        show (markInviteAccepted st.invites e now).get ⟨k, hk2⟩ = _
        rw [get_markInviteAccepted st.invites e now k hk2b hk2]
        rw [Q2 k hk hk2b hmail]
        refine if_neg ?_
        intro ⟨hc, _⟩
        apply he
        by_cases hst : (project.invites.get ⟨k, hk⟩).status = "pending"
        · rw [if_pos hst] at hc
          have h9 : (project.invites.get ⟨k, hk⟩).email = e := hc
          rw [hmail] at h9
          exact h9.symm
        · rw [if_neg hst] at hc
          rw [hmail] at hc
          exact hc.symm
      · show _ ∈ st.membersToAdd ++ _
        exact List.mem_append_left _ Q3
      · show targetEmail ∈ st.addedMembers ++ [e]
        exact List.mem_append_left _ Q5
  | none =>
    simp only []
    by_cases hpend : (st.invites.any fun invite =>
        invite.email == e && invite.status == "pending") = true
    · rw [if_pos hpend]
      exact ⟨Q1, Q2, Q3, Q4, Q5⟩
    · rw [if_neg hpend]
      refine ⟨Q1, Q2, Q3, ?_, Q5⟩
      intro inv hinv
      rcases List.mem_append.1 hinv with hi | hi
      · exact Q4 inv hi
      · simp only [List.mem_singleton] at hi
        subst hi
        show e ≠ targetEmail
        exact he

theorem foldl_inviteStep_pre (requester : Nat) (project : ProjectDoc) (users : List UserRec)
    (nes : List String) (now : Int) (targetEmail : String) (u : UserRec)
    (hIds : (users.map UserRec.id).Nodup)
    (hUser : userByEmail users nes targetEmail = some u) :
    ∀ (l : List String), targetEmail ∉ l → ∀ st : InviteState,
      InvitePre project targetEmail u st →
      InvitePre project targetEmail u
        (l.foldl (inviteStep requester project users nes now) st) := by
  intro l
  induction l with
  | nil => intro _ st hp; exact hp
  | cons x xs ih =>
    intro hnot st hp
    rw [List.foldl_cons]
    have hx : x ≠ targetEmail := by
      intro hc
      exact hnot (by simp [hc])
    exact ih (fun hc => hnot (by simp [hc]))
      _ (inviteStep_pre requester project users nes now targetEmail u hIds hUser x hx st hp)

theorem foldl_inviteStep_post (requester : Nat) (project : ProjectDoc) (users : List UserRec)
    (nes : List String) (now : Int) (targetEmail : String) (u : UserRec) :
    ∀ (l : List String), targetEmail ∉ l → ∀ st : InviteState,
      InvitePost project requester now targetEmail u st →
      InvitePost project requester now targetEmail u
        (l.foldl (inviteStep requester project users nes now) st) := by
  intro l
  induction l with
  | nil => intro _ st hq; exact hq
  | cons x xs ih =>
    intro hnot st hq
    rw [List.foldl_cons]
    have hx : x ≠ targetEmail := by
      intro hc
      exact hnot (by simp [hc])
    exact ih (fun hc => hnot (by simp [hc]))
      _ (inviteStep_post requester project users nes now targetEmail u x hx st hq)

/-- C8: an invite request by the project owner containing an email that
resolves to an existing account which is not already a member adds that user
as a collaborator member (addedBy the requester), reports the email under
`addedMembers`, transitions every originally-pending invite for that email to
accepted (leaving other invite records for it untouched), and creates no new
invite record for that email. -/
theorem C8_invite_existing_user
    (requester : Nat) (project : ProjectDoc) (emailField : String) (emailsField : List String)
    (users : List UserRec) (now : Int) (targetEmail : String) (u : UserRec)
    (hOwner : isProjectOwner project requester = true)
    (hIds : (users.map UserRec.id).Nodup)
    (hMem : targetEmail ∈ inviteNormalizedEmails emailField emailsField)
    (hUser : userByEmail users (inviteNormalizedEmails emailField emailsField) targetEmail =
      some u)
    (hNotMember : isProjectMember project u.id = false) :
    ∃ (updated : ProjectDoc) (results : InviteResults),
      inviteOp requester project emailField emailsField users now = .ok (updated, results) ∧
      (⟨u.id, "collaborator", requester, now⟩ : Member) ∈ updated.members ∧
      targetEmail ∈ results.addedMembers ∧
      project.invites.length ≤ updated.invites.length ∧
      (∀ (k : Nat) (hk : k < project.invites.length) (hk2 : k < updated.invites.length),
        (project.invites.get ⟨k, hk⟩).email = targetEmail →
        updated.invites.get ⟨k, hk2⟩ =
          (if (project.invites.get ⟨k, hk⟩).status = "pending" then
            { project.invites.get ⟨k, hk⟩ with status := "accepted", acceptedAt := some now }
          else project.invites.get ⟨k, hk⟩)) ∧
      (∀ inv ∈ updated.invites.drop project.invites.length, inv.email ≠ targetEmail) := by
  have hnodup : (inviteNormalizedEmails emailField emailsField).Nodup := nodup_dedupFirst _
  have hpre0 : InvitePre project targetEmail u ⟨project.invites, [], [], [], [], [], []⟩ := by
    refine ⟨rfl, fun k hk hk2 _ => rfl, ?_, ?_⟩
    · intro m hm
      simp at hm
    · intro inv hinv
      simp at hinv
  have hpost : InvitePost project requester now targetEmail u
      ((inviteNormalizedEmails emailField emailsField).foldl
        (inviteStep requester project users (inviteNormalizedEmails emailField emailsField) now)
        ⟨project.invites, [], [], [], [], [], []⟩) := by
    rcases List.append_of_mem hMem with ⟨l1, l2, hsplit⟩
    have hnotin : targetEmail ∉ l1 ∧ targetEmail ∉ l2 := by
      rw [hsplit] at hnodup
      rcases List.nodup_append.1 hnodup with ⟨_, hn2, hdisj⟩
      exact ⟨fun hc => hdisj hc (by simp), (List.nodup_cons.1 hn2).1⟩
    rw [hsplit] at hUser ⊢
    rw [List.foldl_append, List.foldl_cons]
    apply foldl_inviteStep_post requester project users _ now targetEmail u l2 hnotin.2
    apply inviteStep_at_target requester project users _ now targetEmail u hUser hNotMember
    exact foldl_inviteStep_pre requester project users _ now targetEmail u hIds hUser
      l1 hnotin.1 _ hpre0
  set stF := (inviteNormalizedEmails emailField emailsField).foldl
    (inviteStep requester project users (inviteNormalizedEmails emailField emailsField) now)
    ⟨project.invites, [], [], [], [], [], []⟩ with hstF
  obtain ⟨Q1, Q2, Q3, Q4, Q5⟩ := hpost
  have hne1 : ¬((inviteNormalizedEmails emailField emailsField).isEmpty = true) := by
    intro hc
    have := List.ne_nil_of_mem hMem
    cases hl : inviteNormalizedEmails emailField emailsField with
    | nil => exact this hl
    | cons y ys => rw [hl] at hc; simp at hc
  have hne2 : ¬((!isProjectOwner project requester) = true) := by
    rw [hOwner]
    simp
  refine ⟨{ project with
      members := project.members ++ stF.membersToAdd
      invites := stF.invites ++ stF.invitesToAdd },
    ⟨stF.addedMembers, stF.invitationsSent, stF.alreadyMembers, stF.alreadyInvited,
      inviteInvalidEmails emailField emailsField⟩, ?_, ?_, ?_, ?_, ?_, ?_⟩
  · show inviteOp requester project emailField emailsField users now = _
    simp only [inviteOp]
    rw [if_neg hne1, if_neg hne2]
  · show _ ∈ project.members ++ _
    exact List.mem_append_right _ Q3
  · exact Q5
  · show project.invites.length ≤ (_ ++ _ : List Invite).length
    rw [List.length_append, Q1]
    omega
  · intro k hk hk2 hmail
    have hlt : k < ((inviteNormalizedEmails emailField emailsField).foldl
        (inviteStep requester project users (inviteNormalizedEmails emailField emailsField) now)
        ⟨project.invites, [], [], [], [], [], []⟩).invites.length := by
      rw [Q1]
      exact hk
    show (_ ++ _ : List Invite).get ⟨k, hk2⟩ = _
    rw [get_append_left_own _ _ k hlt hk2]
    exact Q2 k hk hlt hmail
  · intro inv hinv
    have hlen : project.invites.length = ((inviteNormalizedEmails emailField
        emailsField).foldl
        (inviteStep requester project users (inviteNormalizedEmails emailField emailsField) now)
        ⟨project.invites, [], [], [], [], [], []⟩).invites.length := Q1.symm
    rw [hlen] at hinv
    rw [List.drop_left] at hinv
    exact Q4 inv hinv

/-- C8, witness: owner user 1 invites " Bob@X.com " on a project that has a
pending and a cancelled invite for bob@x.com; account 2 owns that email and is
not yet a member. -/
theorem C8_invite_existing_user_witness :
    ∃ (updated : ProjectDoc) (results : InviteResults),
      inviteOp 1
          (⟨1, [⟨1, "owner", 1, 0⟩],
            [⟨"bob@x.com", 1, "pending", 0, none⟩,
             ⟨"bob@x.com", 1, "cancelled", 0, none⟩]⟩ : ProjectDoc)
          " Bob@X.com " [] [⟨2, "bob@x.com"⟩] 5 = .ok (updated, results) ∧
      (⟨2, "collaborator", 1, 5⟩ : Member) ∈ updated.members ∧
      "bob@x.com" ∈ results.addedMembers ∧
      (⟨1, [⟨1, "owner", 1, 0⟩],
        [⟨"bob@x.com", 1, "pending", 0, none⟩,
         ⟨"bob@x.com", 1, "cancelled", 0, none⟩]⟩ : ProjectDoc).invites.length ≤
        updated.invites.length ∧
      (∀ (k : Nat)
          (hk : k < (⟨1, [⟨1, "owner", 1, 0⟩],
            [⟨"bob@x.com", 1, "pending", 0, none⟩,
             ⟨"bob@x.com", 1, "cancelled", 0, none⟩]⟩ : ProjectDoc).invites.length)
          (hk2 : k < updated.invites.length),
        ((⟨1, [⟨1, "owner", 1, 0⟩],
          [⟨"bob@x.com", 1, "pending", 0, none⟩,
           ⟨"bob@x.com", 1, "cancelled", 0, none⟩]⟩ : ProjectDoc).invites.get
            ⟨k, hk⟩).email = "bob@x.com" →
        updated.invites.get ⟨k, hk2⟩ =
          (if ((⟨1, [⟨1, "owner", 1, 0⟩],
              [⟨"bob@x.com", 1, "pending", 0, none⟩,
               ⟨"bob@x.com", 1, "cancelled", 0, none⟩]⟩ : ProjectDoc).invites.get
                ⟨k, hk⟩).status = "pending" then
            { (⟨1, [⟨1, "owner", 1, 0⟩],
              [⟨"bob@x.com", 1, "pending", 0, none⟩,
               ⟨"bob@x.com", 1, "cancelled", 0, none⟩]⟩ : ProjectDoc).invites.get
                ⟨k, hk⟩ with status := "accepted", acceptedAt := some 5 }
          else (⟨1, [⟨1, "owner", 1, 0⟩],
            [⟨"bob@x.com", 1, "pending", 0, none⟩,
             ⟨"bob@x.com", 1, "cancelled", 0, none⟩]⟩ : ProjectDoc).invites.get ⟨k, hk⟩)) ∧
      (∀ inv ∈ updated.invites.drop
          (⟨1, [⟨1, "owner", 1, 0⟩],
            [⟨"bob@x.com", 1, "pending", 0, none⟩,
             ⟨"bob@x.com", 1, "cancelled", 0, none⟩]⟩ : ProjectDoc).invites.length,
        inv.email ≠ "bob@x.com") :=
  C8_invite_existing_user 1
    (⟨1, [⟨1, "owner", 1, 0⟩],
      [⟨"bob@x.com", 1, "pending", 0, none⟩,
       ⟨"bob@x.com", 1, "cancelled", 0, none⟩]⟩ : ProjectDoc)
    " Bob@X.com " [] [⟨2, "bob@x.com"⟩] 5 "bob@x.com" ⟨2, "bob@x.com"⟩
    rfl (by decide) (by decide) rfl rfl

end JiraBackend
